import Mathlib

/-!
# Verification of the SOR archiver core

Shallow embedding of the SOR archiver (`src/v0.0.1`, `src/v0.0.2`) and
proofs about it.  Bytes are modelled as `Nat` (values < 256 where the
Python code operates on `bytes`); byte strings are `List Nat`; fallible
Python code (code that can raise) returns `Option`.
-/

namespace SOR

/-! ## Byte helpers (`int.to_bytes` / `int.from_bytes`, `struct.pack`) -/

/-- `v.to_bytes(w, 'big')`.  Python raises `OverflowError` when `v ≥ 256^w`;
the model truncates to `v % 256^w` (all uses in the development stay in range). -/
def toBytesBE : Nat → Nat → List Nat
  | 0, _ => []
  | w+1, v => toBytesBE w (v / 256) ++ [v % 256]

/-- `v.to_bytes(w, 'little')` (same truncation remark as `toBytesBE`). -/
def toBytesLE : Nat → Nat → List Nat
  | 0, _ => []
  | w+1, v => v % 256 :: toBytesLE w (v / 256)

/-- `int.from_bytes(l, 'big')`. -/
def fromBytesBE (l : List Nat) : Nat := l.foldl (fun a b => a * 256 + b) 0

/-- `int.from_bytes(l, 'little')`. -/
def fromBytesLE (l : List Nat) : Nat := l.foldr (fun b a => a * 256 + b) 0

/-! ## RLE (`src/v0.0.1/rle.py`) -/

/-- Loop body of `rle_encode`: `prev`/`count` state over the remaining input. -/
def rle_encode_loop (prev cnt : Nat) : List Nat → List Nat
  | [] => [prev, cnt]
  | b :: rest =>
      if b = prev ∧ cnt < 255 then rle_encode_loop prev (cnt + 1) rest
      else prev :: cnt :: rle_encode_loop b 1 rest

/-- `rle_encode`: byte-pair `(value, count)` encoding, counts 1..255. -/
def rle_encode : List Nat → List Nat
  | [] => []
  | b :: rest => rle_encode_loop b 1 rest

/-- `rle_decode`: fails (`ValueError` in Python, `none` here) on odd input length. -/
def rle_decode : List Nat → Option (List Nat)
  | [] => some []
  | [_] => none
  | b :: cnt :: rest => (rle_decode rest).map (fun r => List.replicate cnt b ++ r)

/-! ## Move-to-front (`src/v0.0.1/mtf.py`) -/

/-- `mtf_encode` main loop over the 256-entry symbol table.  Python's
`list.index` raises for a symbol not in the table; the source only ever
receives bytes (< 256), which are always present. -/
def mtf_encode_go (table : List Nat) : List Nat → List Nat
  | [] => []
  | b :: rest =>
      let idx := table.indexOf b
      idx :: mtf_encode_go (b :: table.eraseIdx idx) rest

/-- `mtf_encode`. -/
def mtf_encode (data : List Nat) : List Nat := mtf_encode_go (List.range 256) data

/-- `mtf_decode` main loop; `symbol_table[idx]` raises `IndexError` for an
out-of-range index (`none` here). -/
def mtf_decode_go (table : List Nat) : List Nat → Option (List Nat)
  | [] => some []
  | idx :: rest =>
      match table[idx]? with
      | none => none
      | some b => (mtf_decode_go (b :: table.eraseIdx idx) rest).map (fun r => b :: r)

/-- `mtf_decode` (also `mtf_decode_to_list`, which is the same algorithm). -/
def mtf_decode (data : List Nat) : Option (List Nat) := mtf_decode_go (List.range 256) data

/-! ## Lexicographic order on byte strings

Python compares `bytes` lexicographically (a strict prefix is smaller).
`lexLe` is the `≤` relation used as sort key comparison in `bwt_encode`. -/

/-- Lexicographic `≤` on byte strings, as Python compares `bytes`. -/
def lexLe : List Nat → List Nat → Bool
  | [], _ => true
  | _ :: _, [] => false
  | a :: as, b :: bs => if a < b then true else if a = b then lexLe as bs else false

/-! ## BWT core (`src/v0.0.1/bwt.py`) -/

/-- `get_rotation(i)` = `data[i:] + data[:i]`. -/
def rotation (s : List Nat) (i : Nat) : List Nat := s.drop i ++ s.take i

/-- `indices.sort(key=get_rotation)`: the index list `0..n-1` sorted by the
lexicographic order of the corresponding rotations (Python's stable sort;
modelled with `List.mergeSort`, which is also stable). -/
def bwt_sorted_indices (s : List Nat) : List Nat :=
  (List.range s.length).mergeSort (fun i j => lexLe (rotation s i) (rotation s j))

/-- `bwt_encode` (the `n < 1000` branch and `bwt_encode_simple` are the same
algorithm in the source; modelled once): returns `(last_column, original_index)`. -/
def bwt_encode (s : List Nat) : List Nat × Nat :=
  if s.length = 0 then ([], 0)
  else
    let indices := bwt_sorted_indices s
    (indices.map (fun i => s.getD ((i + s.length - 1) % s.length) 0),
     indices.indexOf 0)

/-- `count`: per-byte occurrence counts over a 256-entry array. -/
def count256 (data : List Nat) : List Nat :=
  data.foldl (fun arr b => arr.set b (arr.getD b 0 + 1)) (List.replicate 256 0)

/-- `cum_count`: exclusive prefix sums of the 256 counts. -/
def cumFromCount (count : List Nat) : List Nat :=
  (count.foldl (fun (acc : List Nat × Nat) c => (acc.1 ++ [acc.2], acc.2 + c)) ([], 0)).1

/-- The `lf` array: `lf[i] = cum_count[data[i]] + occ[data[i]]`, with `occ`
counting prior occurrences, built by the same left-to-right loop. -/
def lfList (data cum : List Nat) : List Nat :=
  (data.foldl
    (fun (acc : List Nat × List Nat) b =>
      (acc.1 ++ [cum.getD b 0 + acc.2.getD b 0], acc.2.set b (acc.2.getD b 0 + 1)))
    ([], List.replicate 256 0)).1

/-- The reconstruction loop of `bwt_decode`: fills `res` from the back,
`res[i] = data[p]; p = lf[p]`.  `data[p]` raises (`none`) when `p` is out of
range. -/
def bwt_walk (data lf : List Nat) : Nat → Nat → Option (List Nat)
  | 0, _ => some []
  | k+1, p =>
      if p < data.length then
        (bwt_walk data lf k (lf.getD p 0)).map (fun r => r ++ [data.getD p 0])
      else none

/-- `bwt_decode`.  The count loop indexes a 256-entry array with each byte,
so a value ≥ 256 raises in Python (`none` here, checked up front). -/
def bwt_decode (data : List Nat) (index : Nat) : Option (List Nat) :=
  if data.length = 0 then some []
  else if data.all (fun b => b < 256) then
    let cum := cumFromCount (count256 data)
    bwt_walk data (lfList data cum) data.length index
  else none

/-- `range(0, len(l), bs)` slicing of `l` into chunks; fuel-driven (the fuel
`l.length` suffices whenever `bs ≥ 1`, which is the only way the source calls it). -/
def chunkGo {α : Type} (bs : Nat) : Nat → List α → List (List α)
  | 0, _ => []
  | fuel+1, l => if l.isEmpty then [] else l.take bs :: chunkGo bs fuel (l.drop bs)

/-- `bwt_encode_block`: single-block form `{index_be4, last_column}` for
`len ≤ block_size`, else `{count_be4, {len_be4, block}*}`. -/
def bwt_encode_block (data : List Nat) (block_size : Nat := 8*1024) : List Nat :=
  if data.length = 0 then []
  else if data.length ≤ block_size then
    let e := bwt_encode data
    toBytesBE 4 e.2 ++ e.1
  else
    let blocks := (chunkGo block_size data.length data).map
      (fun b => let e := bwt_encode b; toBytesBE 4 e.2 ++ e.1)
    toBytesBE 4 blocks.length ++
      (blocks.map (fun b => toBytesBE 4 b.length ++ b)).foldr (fun a r => a ++ r) []

/-- Unfolding equation for `chunkGo` at positive fuel. -/
theorem chunkGo_succ {α : Type} (bs fuel : Nat) (l : List α) :
    chunkGo bs (fuel + 1) l =
      if l.isEmpty then [] else l.take bs :: chunkGo bs fuel (l.drop bs) :=
  rfl

/-- Multi-block loop of `bwt_decode_block` (`num_blocks` iterations from
byte position `pos`). -/
def bwt_decode_block_loop (data : List Nat) : Nat → Nat → Option (List Nat)
  | 0, _ => some []
  | k+1, pos =>
      if pos + 4 > data.length then none
      else
        let bsz := fromBytesBE ((data.drop pos).take 4)
        if pos + 4 + bsz > data.length then none
        else
          let bd := (data.drop (pos + 4)).take bsz
          match bwt_decode (bd.drop 4) (fromBytesBE (bd.take 4)) with
          | none => none
          | some ob => (bwt_decode_block_loop data k (pos + 4 + bsz)).map (fun r => ob ++ r)

/-- `bwt_decode_block`: tries the single-block reading when
`len > 4 ∧ first4 < len - 4`, otherwise reads the multi-block container. -/
def bwt_decode_block (data : List Nat) : Option (List Nat) :=
  if data.length = 0 then some []
  else if data.length < 4 then none
  else if 4 < data.length ∧ fromBytesBE (data.take 4) < data.length - 4 then
    bwt_decode (data.drop 4) (fromBytesBE (data.take 4))
  else
    bwt_decode_block_loop data (fromBytesBE (data.take 4)) 4

/-! ## Basic facts about the BWT embedding -/

theorem lexLe_refl (l : List Nat) : lexLe l l = true := by
  induction l with
  | nil => rfl
  | cons a as ih => simp [lexLe, ih]

theorem rotation_replicate (n v i : Nat) (h : i ≤ n) :
    rotation (List.replicate n v) i = List.replicate n v := by
  unfold rotation
  rw [List.drop_replicate, List.take_replicate, ← List.replicate_add]
  congr 1
  omega

theorem bwt_sorted_indices_replicate (n v : Nat) :
    bwt_sorted_indices (List.replicate n v) = List.range n := by
  unfold bwt_sorted_indices
  rw [List.length_replicate]
  apply List.mergeSort_of_sorted
  have hp : List.Pairwise (· < ·) (List.range n) := List.pairwise_lt_range n
  refine hp.imp_of_mem ?_
  intro a b ha hb _
  rw [rotation_replicate n v a (Nat.le_of_lt (List.mem_range.mp ha)),
    rotation_replicate n v b (Nat.le_of_lt (List.mem_range.mp hb))]
  exact lexLe_refl _

theorem getD_replicate_self (n v k : Nat) (hk : k < n) :
    (List.replicate n v).getD k 0 = v := by
  rw [List.getD_eq_getElem _ _ (by simpa using hk)]
  simp

theorem bwt_encode_replicate (n v : Nat) (hn : n ≠ 0) :
    bwt_encode (List.replicate n v) = (List.replicate n v, 0) := by
  unfold bwt_encode
  rw [List.length_replicate, if_neg hn, bwt_sorted_indices_replicate]
  obtain ⟨m, rfl⟩ := Nat.exists_eq_succ_of_ne_zero hn
  show (_, _) = (_, _)
  have h1 : List.map (fun i => (List.replicate m.succ v).getD ((i + m.succ - 1) % m.succ) 0)
      (List.range m.succ) = List.replicate m.succ v := by
    rw [List.map_congr_left (g := fun _ => v), List.map_const', List.length_range]
    intro i _
    exact getD_replicate_self _ _ _ (Nat.mod_lt _ (Nat.succ_pos m))
  have h2 : List.indexOf 0 (List.range m.succ) = 0 := by
    rw [List.range_succ_eq_map]
    exact List.indexOf_cons_self 0 _
  rw [h1, h2]

theorem bwt_walk_length (data lf : List Nat) :
    ∀ k p r, bwt_walk data lf k p = some r → r.length = k := by
  intro k
  induction k with
  | zero =>
      intro p r h
      simp only [bwt_walk, Option.some.injEq] at h
      rw [← h]
      rfl
  | succ k ih =>
      intro p r h
      simp only [bwt_walk] at h
      split at h
      · match hw : bwt_walk data lf k (lf.getD p 0) with
        | none => rw [hw] at h; exact absurd h (by simp)
        | some r0 =>
            rw [hw] at h
            simp only [Option.map_some', Option.some.injEq] at h
            have hl := ih (lf.getD p 0) r0 hw
            rw [← h, List.length_append, hl]
            rfl
      · exact absurd h (by simp)

theorem bwt_decode_length (data : List Nat) (idx : Nat) (r : List Nat)
    (h : bwt_decode data idx = some r) : r.length = data.length := by
  unfold bwt_decode at h
  split at h
  · simp only [Option.some.injEq] at h
    rw [← h]
    simp_all
  · split at h
    · exact bwt_walk_length _ _ _ _ _ h
    · exact absurd h (by simp)

/-! ### Claim C4: the multi-block BWT container is misread by `bwt_decode_block` -/

theorem chunk_8193 (v : Nat) :
    chunkGo 8192 8193 (List.replicate 8193 v) = [List.replicate 8192 v, [v]] := by
  rw [show (8193 : Nat) = 8192 + 1 from by norm_num, chunkGo_succ,
    if_neg (by simp), List.take_replicate, List.drop_replicate]
  norm_num
  rw [show (8192 : Nat) = 8191 + 1 from by norm_num, chunkGo_succ,
    if_neg (by simp), List.take_of_length_le (by simp), List.drop_eq_nil_of_le (by simp)]
  rw [show (8191 : Nat) = 8190 + 1 from by norm_num, chunkGo_succ]
  simp

theorem bwt_encode_block_8193 :
    bwt_encode_block (List.replicate 8193 0) (8*1024) =
      [0, 0, 0, 2] ++ (([0, 0, 32, 4] ++ ([0, 0, 0, 0] ++ List.replicate 8192 0)) ++
        (([0, 0, 0, 5] ++ ([0, 0, 0, 0] ++ [0])) ++ [])) := by
  unfold bwt_encode_block
  rw [List.length_replicate, if_neg (by norm_num), if_neg (by norm_num),
    show (8 * 1024 : Nat) = 8192 from by norm_num, chunk_8193]
  simp only [List.map_cons, List.map_nil, bwt_encode_replicate 8192 0 (by norm_num),
    show ([0] : List Nat) = List.replicate 1 0 from rfl, bwt_encode_replicate 1 0 (by norm_num),
    List.foldr_cons, List.foldr_nil, List.length_cons, List.length_nil, List.length_append,
    List.length_replicate]
  norm_num
  rw [show (toBytesBE 4 0).length = 4 from rfl, show toBytesBE 4 2 = [0,0,0,2] from rfl,
    show toBytesBE 4 (4 + 8192) = [0,0,32,4] from rfl, show toBytesBE 4 (4 + 1) = [0,0,0,5] from rfl,
    show toBytesBE 4 0 = [0,0,0,0] from rfl]
  simp only [List.cons_append, List.nil_append, List.append_assoc, List.append_nil]

/-- **Claim C4** (code_bug evidence).  The claim states that
`bwt_decode_block (bwt_encode_block s) = s` also in the multi-block form
(`|s|` above the 8 KiB block size).  The code fails: `bwt_decode_block`
accepts the multi-block container through its single-block reading
(`first4 < len - 4` holds for any block count), so the round trip is wrong
already at `s = 0^8193`. -/
theorem c4_bwt_block_roundtrip_fails :
    bwt_decode_block (bwt_encode_block (List.replicate 8193 0) (8*1024)) ≠
      some (List.replicate 8193 0) := by
  rw [bwt_encode_block_8193]
  intro h
  unfold bwt_decode_block at h
  rw [List.take_left' (by rfl), List.drop_left' (by rfl)] at h
  have hlen : (([0, 0, 32, 4] ++ ([0, 0, 0, 0] ++ List.replicate 8192 (0:Nat))) ++
      (([0, 0, 0, 5] ++ ([0, 0, 0, 0] ++ [0])) ++ [])).length = 8209 := by
    simp only [List.length_append, List.length_replicate, List.length_cons, List.length_nil]
  have hlenfull : ([0, 0, 0, 2] ++ (([0, 0, 32, 4] ++ ([0, 0, 0, 0] ++ List.replicate 8192 (0:Nat))) ++
      (([0, 0, 0, 5] ++ ([0, 0, 0, 0] ++ [0])) ++ []))).length = 8213 := by
    simp only [List.length_append, List.length_replicate, List.length_cons, List.length_nil]
  rw [hlenfull, if_neg (by norm_num), if_neg (by norm_num), if_pos ?side] at h
  case side =>
    refine ⟨by norm_num, ?_⟩
    rw [show fromBytesBE [0, 0, 0, 2] = 2 from rfl]
    norm_num
  have := bwt_decode_length _ _ _ h
  rw [List.length_replicate, hlen] at this
  norm_num at this

/-! ### Order lemmas for `lexLe` -/

theorem lexLe_cons_iff (a b : Nat) (as bs : List Nat) :
    lexLe (a :: as) (b :: bs) = true ↔ a < b ∨ (a = b ∧ lexLe as bs = true) := by
  simp only [lexLe]
  split_ifs with h1 h2
  · simp [h1]
  · simp [h1, h2]
  · simp [h1, h2]

theorem lexLe_trans (a : List Nat) : ∀ b c : List Nat,
    lexLe a b = true → lexLe b c = true → lexLe a c = true := by
  induction a with
  | nil => intro b c _ _; rfl
  | cons x xs ih =>
      intro b c hab hbc
      match b, c with
      | [], _ => simp [lexLe] at hab
      | y :: ys, [] => simp [lexLe] at hbc
      | y :: ys, z :: zs =>
          rw [lexLe_cons_iff] at hab hbc ⊢
          rcases hab with h1 | ⟨h1, h1'⟩
          · rcases hbc with h2 | ⟨h2, _⟩
            · exact Or.inl (Nat.lt_trans h1 h2)
            · exact Or.inl (h2 ▸ h1)
          · rcases hbc with h2 | ⟨h2, h2'⟩
            · exact Or.inl (h1 ▸ h2)
            · exact Or.inr ⟨h1.trans h2, ih ys zs h1' h2'⟩

theorem lexLe_total (a : List Nat) : ∀ b : List Nat,
    (lexLe a b || lexLe b a) = true := by
  induction a with
  | nil => intro b; simp [lexLe]
  | cons x xs ih =>
      intro b
      match b with
      | [] => simp [lexLe]
      | y :: ys =>
          rcases Nat.lt_trichotomy x y with h | h | h
          · simp [lexLe_cons_iff, h]
          · have := ih ys
            rcases Bool.or_eq_true_iff.mp this with h' | h'
            · simp [lexLe_cons_iff, h, h']
            · have : lexLe (y :: ys) (x :: xs) = true := by
                rw [lexLe_cons_iff]; exact Or.inr ⟨h.symm, h'⟩
              simp [this]
          · have : lexLe (y :: ys) (x :: xs) = true := by
              rw [lexLe_cons_iff]; exact Or.inl h
            simp [this]

theorem lexLe_antisymm (a : List Nat) : ∀ b : List Nat,
    lexLe a b = true → lexLe b a = true → a = b := by
  induction a with
  | nil =>
      intro b _ hba
      match b with
      | [] => rfl
      | y :: ys => simp [lexLe] at hba
  | cons x xs ih =>
      intro b hab hba
      match b with
      | [] => simp [lexLe] at hab
      | y :: ys =>
          rw [lexLe_cons_iff] at hab hba
          rcases hab with h1 | ⟨h1, h1'⟩
          · rcases hba with h2 | ⟨h2, _⟩
            · omega
            · omega
          · rcases hba with h2 | ⟨h2, h2'⟩
            · omega
            · rw [h1, ih ys h1' h2']

theorem lexLe_head (a b : Nat) (as bs : List Nat) (h : lexLe (a :: as) (b :: bs) = true) :
    a ≤ b := by
  rw [lexLe_cons_iff] at h
  rcases h with h | ⟨h, _⟩ <;> omega

theorem lexLe_cons_same (c : Nat) (as bs : List Nat) :
    lexLe (c :: as) (c :: bs) = lexLe as bs := by
  simp [lexLe]

theorem lexLe_dropLast (a : List Nat) : ∀ b : List Nat, a.length = b.length →
    lexLe a b = true → lexLe a.dropLast b.dropLast = true := by
  induction a with
  | nil =>
      intro b hl _
      have : b = [] := List.eq_nil_of_length_eq_zero hl.symm
      subst this; rfl
  | cons x xs ih =>
      intro b hl hab
      match b with
      | [] => simp at hl
      | y :: ys =>
          match xs, ys with
          | [], ys =>
              have : ys = [] := by simpa using hl.symm
              subst this; rfl
          | x2 :: xs2, [] => simp at hl
          | x2 :: xs2, y2 :: ys2 =>
              rw [List.dropLast_cons₂, List.dropLast_cons₂]
              rw [lexLe_cons_iff] at hab ⊢
              rcases hab with h1 | ⟨h1, h1'⟩
              · exact Or.inl h1
              · refine Or.inr ⟨h1, ?_⟩
                have hl' : (x2 :: xs2).length = (y2 :: ys2).length := by simpa using hl
                exact ih _ hl' h1'

/-! ### Structure of rotations -/

theorem rotation_length (s : List Nat) (i : Nat) (h : i ≤ s.length) :
    (rotation s i).length = s.length := by
  simp only [rotation, List.length_append, List.length_drop, List.length_take]
  omega

theorem rotation_zero (s : List Nat) : rotation s 0 = s := by
  simp [rotation]

theorem rotation_head (s : List Nat) (i : Nat) (h : i < s.length) :
    (rotation s i).getD 0 0 = s.getD i 0 := by
  have hd : i < s.length := h
  rw [rotation, List.getD_append _ _ _ _ (by simp; omega),
    List.getD_eq_getElem _ _ (by simp; omega), List.getD_eq_getElem _ _ hd]
  simp

/-- The rotation of the predecessor index: `rot((i-1) mod n)` is the last
character of `rot(i)` consed onto `rot(i)` without its last character. -/
theorem rotation_pred (s : List Nat) (i : Nat) (hn : s.length ≠ 0) (h : i < s.length) :
    rotation s ((i + s.length - 1) % s.length) =
      s.getD ((i + s.length - 1) % s.length) 0 :: (rotation s i).dropLast := by
  match i with
  | 0 =>
      have hmod : (0 + s.length - 1) % s.length = s.length - 1 := by
        rw [Nat.zero_add]
        exact Nat.mod_eq_of_lt (by omega)
      rw [hmod, rotation_zero]
      unfold rotation
      rw [List.drop_eq_getElem_cons (by omega), List.drop_eq_nil_of_le (by omega),
        List.dropLast_eq_take, ← List.getD_eq_getElem s 0 (by omega)]
      simp
  | k + 1 =>
      have hmod : (k + 1 + s.length - 1) % s.length = k := by
        have : k + 1 + s.length - 1 = k + s.length := by omega
        rw [this, Nat.add_mod_right]
        exact Nat.mod_eq_of_lt (by omega)
      rw [hmod]
      unfold rotation
      have htake : s.take (k + 1) = s.take k ++ [s.getD k 0] := by
        rw [List.take_succ, List.getElem?_eq_getElem (by omega),
          ← List.getD_eq_getElem s 0 (by omega)]
        rfl
      have htk : s.take (k + 1) ≠ [] := by
        rw [htake]; simp
      rw [List.dropLast_append_of_ne_nil _ htk, htake, List.dropLast_concat,
        List.drop_eq_getElem_cons (n := k) (by omega), ← List.getD_eq_getElem s 0 (by omega)]
      rfl

/-! ### Generic list lemmas for the BWT inverse proof -/

theorem map_getD_range (s : List Nat) :
    (List.range s.length).map (fun i => s.getD i 0) = s := by
  induction s with
  | nil => rfl
  | cons a t ih =>
      rw [List.length_cons, List.range_succ_eq_map, List.map_cons, List.map_map]
      show a :: (List.range t.length).map (fun i => t.getD i 0) = a :: t
      rw [ih]

theorem map_pred_range (n : Nat) (hn : n ≠ 0) :
    (List.range n).map (fun i => (i + n - 1) % n) = (n - 1) :: List.range (n - 1) := by
  obtain ⟨m, rfl⟩ := Nat.exists_eq_succ_of_ne_zero hn
  rw [List.range_succ_eq_map, List.map_cons, List.map_map]
  have h0 : (0 + (m + 1) - 1) % (m + 1) = m := by
    rw [show 0 + (m + 1) - 1 = m from by omega]
    exact Nat.mod_eq_of_lt (by omega)
  rw [h0, Nat.succ_sub_one]
  congr 1
  rw [List.map_congr_left (g := fun i => i), List.map_id']
  intro i hi
  show (i + 1 + (m + 1) - 1) % (m + 1) = i
  rw [show i + 1 + (m + 1) - 1 = i + (m + 1) from by omega, Nat.add_mod_right]
  have := List.mem_range.mp hi
  exact Nat.mod_eq_of_lt (by omega)

theorem perm_pred_range (n : Nat) (hn : n ≠ 0) :
    ((List.range n).map (fun i => (i + n - 1) % n)).Perm (List.range n) := by
  rw [map_pred_range n hn]
  obtain ⟨m, rfl⟩ := Nat.exists_eq_succ_of_ne_zero hn
  rw [List.range_succ]
  simpa using (List.perm_append_singleton m (List.range m)).symm

/-- In any list, the `countP p`-th entry of `filter p` taken over the prefix
before a position satisfying `p` is that position's element. -/
theorem filter_getD_countP (p : Nat → Bool) :
    ∀ (xs : List Nat) (j : Nat), j < xs.length → p (xs.getD j 0) = true →
      List.countP p (xs.take j) < (xs.filter p).length ∧
      (xs.filter p).getD (List.countP p (xs.take j)) 0 = xs.getD j 0 := by
  intro xs
  induction xs with
  | nil => intro j hj _; simp at hj
  | cons x xs ih =>
      intro j hj hpj
      match j with
      | 0 =>
          rw [List.take_zero, List.countP_nil]
          have hx : p x = true := by simpa using hpj
          rw [List.filter_cons_of_pos hx]
          exact ⟨by simp, by simpa using hpj ▸ rfl⟩
      | j + 1 =>
          have hj' : j < xs.length := by simpa using hj
          have hpj' : p (xs.getD j 0) = true := by simpa using hpj
          obtain ⟨ih1, ih2⟩ := ih j hj' hpj'
          by_cases hx : p x = true
          · have hcount : List.countP p ((x :: xs).take (j + 1)) =
                List.countP p (xs.take j) + 1 := by
              rw [List.take_succ_cons, List.countP_cons]
              simp [hx]
            rw [hcount, List.filter_cons_of_pos hx, List.getD_cons_succ]
            refine ⟨by simp only [List.length_cons]; omega, ?_⟩
            rw [ih2, List.getD_cons_succ]
          · have hcount : List.countP p ((x :: xs).take (j + 1)) =
                List.countP p (xs.take j) := by
              rw [List.take_succ_cons, List.countP_cons]
              simp [hx]
            rw [hcount, List.filter_cons_of_neg (by simpa using hx)]
            exact ⟨ih1, by rw [ih2, List.getD_cons_succ]⟩

/-- Counting elements below `c + 1` splits into those below `c` and those equal to `c`. -/
theorem countP_lt_succ (data : List Nat) (c : Nat) :
    data.countP (fun x => x < c + 1) = data.countP (fun x => x < c) + data.count c := by
  induction data with
  | nil => simp
  | cons x xs ih =>
      rw [List.countP_cons, List.countP_cons, List.count_cons, ih]
      by_cases h1 : x < c
      · simp [h1, Nat.lt_succ_of_lt h1, show ¬ x = c from by omega] <;> omega
      · by_cases h2 : x = c
        · subst h2
          simp [Nat.lt_irrefl, Nat.lt_succ_self] <;> omega
        · simp [h1, h2, show ¬ x < c + 1 from by omega] <;> omega

/-- If position `j` holds `c`, strictly fewer `c`s occur before `j` than in the
whole list. -/
theorem count_take_lt (L : List Nat) (j : Nat) (hj : j < L.length) (c : Nat)
    (hc : L.getD j 0 = c) : (L.take j).count c < L.count c := by
  have hsplit : L = L.take j ++ L.drop j := (List.take_append_drop j L).symm
  have hdrop : L.drop j = c :: L.drop (j + 1) := by
    rw [List.drop_eq_getElem_cons hj]
    congr 1
    rw [← hc, List.getD_eq_getElem _ _ hj]
  calc (L.take j).count c < (L.take j).count c + (c :: L.drop (j + 1)).count c := by
        rw [List.count_cons_self]; omega
    _ = L.count c := by
        conv_rhs => rw [hsplit, hdrop]
        rw [List.count_append]

/-- Position structure of a weakly sorted list of naturals: the `k`-th
occurrence of `c` sits at position `countP (· < c) + k`. -/
theorem sorted_block (c : Nat) :
    ∀ (H : List Nat), H.Pairwise (· ≤ ·) → ∀ k, k < H.count c →
      H.countP (fun x => x < c) + k < H.length ∧
      H.getD (H.countP (fun x => x < c) + k) 0 = c ∧
      (H.take (H.countP (fun x => x < c) + k)).count c = k := by
  intro H
  induction H with
  | nil => intro _ k hk; simp at hk
  | cons a T ih =>
      intro hs k hk
      have hsT : T.Pairwise (· ≤ ·) := hs.tail
      have hha : ∀ x ∈ T, a ≤ x := fun x hx => (List.pairwise_cons.mp hs).1 x hx
      rcases Nat.lt_trichotomy a c with hac | hac | hac
      · -- a < c : everything shifts by one
        have hcnt : (a :: T).countP (fun x => x < c) = T.countP (fun x => x < c) + 1 := by
          rw [List.countP_cons]
          simp [hac]
        have hcc : (a :: T).count c = T.count c := by
          rw [List.count_cons]
          simp [show (a == c) = false from by simp; omega]
        rw [hcc] at hk
        obtain ⟨b1, b2, b3⟩ := ih hsT k hk
        refine ⟨?_, ?_, ?_⟩
        · rw [hcnt, List.length_cons]; omega
        · rw [hcnt, show T.countP (fun x => x < c) + 1 + k = (T.countP (fun x => x < c) + k) + 1
            from by omega]
          simpa using b2
        · rw [hcnt, show T.countP (fun x => x < c) + 1 + k = (T.countP (fun x => x < c) + k) + 1
            from by omega, List.take_succ_cons, List.count_cons]
          rw [b3]
          simp [show (a == c) = false from by simp; omega]
      · -- a = c : the block starts at the head
        subst hac
        have hcnt0 : T.countP (fun x => x < a) = 0 := by
          rw [List.countP_eq_zero]
          intro x hx
          simp only [decide_eq_true_eq]
          exact Nat.not_lt.mpr (hha x hx)
        have hcnt : (a :: T).countP (fun x => x < a) = 0 := by
          rw [List.countP_cons]
          simp [hcnt0]
        rw [hcnt, Nat.zero_add]
        match k with
        | 0 => exact ⟨by simp, by simp, by simp⟩
        | k + 1 =>
            have hk' : k < T.count a := by
              rw [List.count_cons_self] at hk
              omega
            obtain ⟨b1, b2, b3⟩ := ih hsT k hk'
            rw [hcnt0, Nat.zero_add] at b1 b2 b3
            refine ⟨by simp; omega, by simpa using b2, ?_⟩
            rw [List.take_succ_cons, List.count_cons_self, b3]
      · -- c < a : sortedness leaves no c at all
        exfalso
        have : (a :: T).count c = 0 := by
          rw [List.count_eq_zero]
          intro hmem
          rcases List.mem_cons.mp hmem with h | h
          · omega
          · have := hha c h
            omega
        omega

/-! ### Specifications of the counting arrays used by `bwt_decode` -/

theorem count256_go_length (data : List Nat) : ∀ (arr : List Nat),
    (data.foldl (fun arr b => arr.set b (arr.getD b 0 + 1)) arr).length = arr.length := by
  induction data with
  | nil => intro arr; rfl
  | cons x xs ih => intro arr; rw [List.foldl_cons, ih, List.length_set]

theorem count256_length (data : List Nat) : (count256 data).length = 256 := by
  unfold count256
  rw [count256_go_length, List.length_replicate]

theorem count256_go_getD (data : List Nat) : ∀ (arr : List Nat), arr.length = 256 →
    (∀ x ∈ data, x < 256) → ∀ b, b < 256 →
    (data.foldl (fun arr b => arr.set b (arr.getD b 0 + 1)) arr).getD b 0 =
      arr.getD b 0 + data.count b := by
  induction data with
  | nil => intro arr _ _ b _; simp
  | cons x xs ih =>
      intro arr hlen hb b hb256
      have hx : x < 256 := hb x (by simp)
      rw [List.foldl_cons, ih _ (by rw [List.length_set]; exact hlen)
        (fun y hy => hb y (by simp [hy])) b hb256]
      have hset : (arr.set x (arr.getD x 0 + 1)).getD b 0 =
          arr.getD b 0 + if x = b then 1 else 0 := by
        rw [@List.getD_eq_getElem _ arr 0 b (by rw [hlen]; exact hb256),
          List.getD_eq_getElem _ _ (by rw [List.length_set, hlen]; exact hb256),
          List.getElem_set]
        by_cases hxb : x = b
        · rw [if_pos hxb, if_pos hxb, hxb,
            @List.getD_eq_getElem _ arr 0 b (by rw [hlen]; exact hb256)]
        · rw [if_neg hxb, if_neg hxb]
          all_goals omega
      rw [hset]
      by_cases hxb : x = b
      · subst hxb
        rw [if_pos rfl, List.count_cons_self]
        omega
      · rw [if_neg hxb, List.count_cons_of_ne (Ne.symm hxb)]
        omega

theorem count256_getD (data : List Nat) (hb : ∀ x ∈ data, x < 256) (b : Nat) (hb256 : b < 256) :
    (count256 data).getD b 0 = data.count b := by
  unfold count256
  rw [count256_go_getD data _ (by rw [List.length_replicate]) hb b hb256,
    getD_replicate_self 256 0 b hb256]
  omega

theorem cumFold_spec (cs : List Nat) : ∀ (pre : List Nat) (t : Nat),
    (cs.foldl (fun (acc : List Nat × Nat) c => (acc.1 ++ [acc.2], acc.2 + c)) (pre, t)).1.length =
      pre.length + cs.length ∧
    (∀ j, j < pre.length →
      (cs.foldl (fun (acc : List Nat × Nat) c => (acc.1 ++ [acc.2], acc.2 + c)) (pre, t)).1.getD j 0 =
        pre.getD j 0) ∧
    (∀ j, j < cs.length →
      (cs.foldl (fun (acc : List Nat × Nat) c => (acc.1 ++ [acc.2], acc.2 + c)) (pre, t)).1.getD
          (pre.length + j) 0 = t + (cs.take j).sum) := by
  induction cs with
  | nil =>
      intro pre t
      exact ⟨by simp, fun j _ => rfl, fun j hj => by simp at hj⟩
  | cons c cs ih =>
      intro pre t
      rw [List.foldl_cons]
      obtain ⟨ihl, ihpre, ihent⟩ := ih (pre ++ [t]) (t + c)
      refine ⟨?_, ?_, ?_⟩
      · rw [ihl]
        simp
        omega
      · intro j hj
        rw [ihpre j (by simp; omega), List.getD_append _ _ _ _ hj]
      · intro j hj
        match j with
        | 0 =>
            have h1 := ihpre pre.length (by simp)
            rw [show pre.length + 0 = pre.length from rfl, h1,
              List.getD_append_right _ _ _ _ (le_refl _)]
            all_goals simp
        | j + 1 =>
            have := ihent j (by simp at hj; omega)
            rw [show pre.length + (j + 1) = (pre ++ [t]).length + j from by simp; omega, this]
            rw [List.take_succ_cons, List.sum_cons]
            omega

theorem cumFromCount_getD (cnt : List Nat) (c : Nat) (hc : c < cnt.length) :
    (cumFromCount cnt).getD c 0 = (cnt.take c).sum := by
  unfold cumFromCount
  have := (cumFold_spec cnt [] 0).2.2 c hc
  simpa using this

theorem cumFromCount_length (cnt : List Nat) : (cumFromCount cnt).length = cnt.length := by
  unfold cumFromCount
  have := (cumFold_spec cnt [] 0).1
  simpa using this

theorem sum_take_count256 (data : List Nat) (hb : ∀ x ∈ data, x < 256) :
    ∀ c, c ≤ 256 → ((count256 data).take c).sum = data.countP (fun x => x < c) := by
  intro c
  induction c with
  | zero =>
      intro _
      rw [List.take_zero, List.sum_nil]
      symm
      rw [List.countP_eq_zero]
      intro a _
      simp
  | succ c ih =>
      intro hc
      rw [List.sum_take_succ _ _ (by rw [count256_length]; omega),
        ih (by omega), countP_lt_succ]
      congr 1
      rw [← List.getD_eq_getElem _ 0 (by rw [count256_length]; omega)]
      exact count256_getD data hb c (by omega)

theorem lfFold_spec (cum : List Nat) (data : List Nat) :
    (∀ x ∈ data, x < 256) →
    (lfList data cum).length = data.length ∧
    (data.foldl
      (fun (acc : List Nat × List Nat) b =>
        (acc.1 ++ [cum.getD b 0 + acc.2.getD b 0], acc.2.set b (acc.2.getD b 0 + 1)))
      ([], List.replicate 256 0)).2.length = 256 ∧
    (∀ b, b < 256 →
      (data.foldl
        (fun (acc : List Nat × List Nat) b =>
          (acc.1 ++ [cum.getD b 0 + acc.2.getD b 0], acc.2.set b (acc.2.getD b 0 + 1)))
        ([], List.replicate 256 0)).2.getD b 0 = data.count b) ∧
    (∀ j, j < data.length →
      (lfList data cum).getD j 0 =
        cum.getD (data.getD j 0) 0 + (data.take j).count (data.getD j 0)) := by
  induction data using List.reverseRecOn with
  | nil =>
      intro _
      refine ⟨rfl, ?_, ?_, ?_⟩
      · show (List.replicate 256 (0:Nat)).length = 256
        rw [List.length_replicate]
      · intro b hb
        show (List.replicate 256 0).getD b 0 = 0
        exact getD_replicate_self 256 0 b hb
      · intro j hj
        simp at hj
  | append_singleton ys y ih =>
      intro hb
      have hys : ∀ x ∈ ys, x < 256 := fun x hx => hb x (by simp [hx])
      have hy : y < 256 := hb y (by simp)
      obtain ⟨ih1, ih2, ih3, ih4⟩ := ih hys
      unfold lfList at ih1 ih4 ⊢
      rw [List.foldl_append, List.foldl_cons, List.foldl_nil] at *
      refine ⟨?_, ?_, ?_, ?_⟩
      · simp only [List.length_append, List.length_cons, List.length_nil]
        rw [ih1]
        all_goals simp
      · rw [List.length_set]
        exact ih2
      · intro b hb256
        rw [List.count_append]
        have hset : ∀ (O : List Nat), O.length = 256 →
            (O.set y (O.getD y 0 + 1)).getD b 0 = O.getD b 0 + if y = b then 1 else 0 := by
          intro O hO
          rw [@List.getD_eq_getElem _ O 0 b (by rw [hO]; exact hb256),
            List.getD_eq_getElem _ _ (by rw [List.length_set, hO]; exact hb256),
            List.getElem_set]
          by_cases hyb : y = b
          · rw [if_pos hyb, if_pos hyb, hyb,
              @List.getD_eq_getElem _ O 0 b (by rw [hO]; exact hb256)]
          · rw [if_neg hyb, if_neg hyb]
            all_goals omega
        rw [hset _ ih2, ih3 b hb256]
        by_cases hyb : y = b
        · subst hyb
          simp
        · rw [if_neg hyb, show List.count b [y] = 0 from by
            rw [List.count_singleton', if_neg (by omega)]]
      · intro j hj
        simp only [List.length_append, List.length_cons, List.length_nil] at hj
        by_cases hjy : j < ys.length
        · rw [List.getD_append _ _ _ _ (by rw [ih1]; exact hjy), ih4 j hjy,
            List.getD_append _ _ _ _ hjy, List.take_append_of_le_length (by omega)]
        · have hjeq : j = ys.length := by omega
          subst hjeq
          rw [List.getD_append_right _ _ _ _ (by rw [ih1]),
            List.getD_append_right _ _ _ _ (by omega)]
          rw [ih1]
          simp only [Nat.sub_self, List.getD_cons_zero]
          rw [ih3 y hy, List.take_left]

theorem lfList_length (data cum : List Nat) (hb : ∀ x ∈ data, x < 256) :
    (lfList data cum).length = data.length :=
  (lfFold_spec cum data hb).1

theorem lfList_getD (data cum : List Nat) (hb : ∀ x ∈ data, x < 256) (j : Nat)
    (hj : j < data.length) :
    (lfList data cum).getD j 0 =
      cum.getD (data.getD j 0) 0 + (data.take j).count (data.getD j 0) :=
  (lfFold_spec cum data hb).2.2.2 j hj

/-- The last character of `rot(i)` is `s[(i-1) mod n]`. -/
theorem rotation_getLast (s : List Nat) (i : Nat) (h : i < s.length) :
    (rotation s i).getD (s.length - 1) 0 = s.getD ((i + s.length - 1) % s.length) 0 := by
  match i with
  | 0 =>
      rw [rotation_zero]
      congr 1
      rw [show 0 + s.length - 1 = s.length - 1 from by omega]
      exact (Nat.mod_eq_of_lt (by omega)).symm
  | k + 1 =>
      have hmod : (k + 1 + s.length - 1) % s.length = k := by
        rw [show k + 1 + s.length - 1 = k + s.length from by omega, Nat.add_mod_right]
        exact Nat.mod_eq_of_lt (by omega)
      rw [hmod]
      unfold rotation
      rw [List.getD_append_right _ _ _ _ (by simp only [List.length_drop]; omega)]
      simp only [List.length_drop]
      rw [show s.length - 1 - (s.length - (k + 1)) = k from by omega,
        List.getD_eq_getElem _ _ (by simp only [List.length_take]; omega),
        List.getElem_take, List.getD_eq_getElem _ _ (by omega)]

/-! ### The sorted rotation table of `bwt_encode` -/

/-- The last column produced by `bwt_encode` (proof-side name for its first
component on nonempty input). -/
def bwtL (s : List Nat) : List Nat :=
  (bwt_sorted_indices s).map (fun i => s.getD ((i + s.length - 1) % s.length) 0)

/-- The first column: heads of the sorted rotations (proof-side helper). -/
def bwtF (s : List Nat) : List Nat :=
  (bwt_sorted_indices s).map (fun i => s.getD i 0)

theorem bwt_encode_eq (s : List Nat) (hn : s.length ≠ 0) :
    bwt_encode s = (bwtL s, (bwt_sorted_indices s).indexOf 0) := by
  unfold bwt_encode bwtL
  rw [if_neg hn]

theorem sigma_perm (s : List Nat) : (bwt_sorted_indices s).Perm (List.range s.length) :=
  List.mergeSort_perm _ _

theorem sigma_pairwise (s : List Nat) :
    (bwt_sorted_indices s).Pairwise (fun i j => lexLe (rotation s i) (rotation s j) = true) := by
  unfold bwt_sorted_indices
  exact @List.sorted_mergeSort _ (fun i j => lexLe (rotation s i) (rotation s j))
    (fun a b c hab hbc => lexLe_trans _ _ _ hab hbc) (fun a b => lexLe_total _ _) _

theorem sigma_length (s : List Nat) : (bwt_sorted_indices s).length = s.length := by
  rw [(sigma_perm s).length_eq, List.length_range]

theorem sigma_mem_lt (s : List Nat) (i : Nat) (hi : i ∈ bwt_sorted_indices s) :
    i < s.length :=
  List.mem_range.mp ((sigma_perm s).mem_iff.mp hi)

theorem sigma_getD_lt (s : List Nat) (p : Nat) (hp : p < s.length) :
    (bwt_sorted_indices s).getD p 0 < s.length := by
  apply sigma_mem_lt
  rw [List.getD_eq_getElem _ _ (by rw [sigma_length]; exact hp)]
  exact List.getElem_mem _

theorem bwtL_length (s : List Nat) : (bwtL s).length = s.length := by
  rw [bwtL, List.length_map, sigma_length]

theorem bwtF_length (s : List Nat) : (bwtF s).length = s.length := by
  rw [bwtF, List.length_map, sigma_length]

theorem bwtL_perm (s : List Nat) (hn : s.length ≠ 0) : (bwtL s).Perm s := by
  unfold bwtL
  have h1 : ((bwt_sorted_indices s).map (fun i => s.getD ((i + s.length - 1) % s.length) 0)).Perm
      ((List.range s.length).map (fun i => s.getD ((i + s.length - 1) % s.length) 0)) :=
    (sigma_perm s).map _
  have h2 : (List.range s.length).map (fun i => s.getD ((i + s.length - 1) % s.length) 0)
      = ((List.range s.length).map (fun i => (i + s.length - 1) % s.length)).map
          (fun i => s.getD i 0) := by
    rw [List.map_map]
    rfl
  have h3 := (perm_pred_range s.length hn).map (fun i => s.getD i 0)
  rw [map_getD_range] at h3
  rw [h2] at h1
  exact h1.trans h3

theorem bwtF_perm (s : List Nat) : (bwtF s).Perm s := by
  unfold bwtF
  have h1 := (sigma_perm s).map (fun i => s.getD i 0)
  rw [map_getD_range] at h1
  exact h1

/-- A rotation by `i < n` decomposes as its head consed on the rest. -/
theorem rotation_cons (s : List Nat) (i : Nat) (h : i < s.length) :
    rotation s i = s.getD i 0 :: (s.drop (i + 1) ++ s.take i) := by
  unfold rotation
  rw [List.drop_eq_getElem_cons h, List.cons_append, List.getD_eq_getElem _ _ h]

theorem bwtF_sorted (s : List Nat) : (bwtF s).Pairwise (· ≤ ·) := by
  unfold bwtF
  rw [List.pairwise_map]
  refine (sigma_pairwise s).imp_of_mem ?_
  intro a b ha hb hle
  have ha' := sigma_mem_lt s a ha
  have hb' := sigma_mem_lt s b hb
  rw [rotation_cons s a ha', rotation_cons s b hb'] at hle
  exact lexLe_head _ _ _ _ hle

theorem getD_map_nat (f : Nat → Nat) (l : List Nat) (j : Nat) (hj : j < l.length) :
    (l.map f).getD j 0 = f (l.getD j 0) := by
  rw [List.getD_eq_getElem l 0 hj,
    List.getD_eq_getElem _ _ (by rw [List.length_map]; exact hj), List.getElem_map]

theorem bwtL_getD (s : List Nat) (j : Nat) (hj : j < s.length) :
    (bwtL s).getD j 0 =
      s.getD (((bwt_sorted_indices s).getD j 0 + s.length - 1) % s.length) 0 := by
  unfold bwtL
  exact getD_map_nat _ _ j (by rw [sigma_length]; exact hj)

theorem bwtF_getD (s : List Nat) (j : Nat) (hj : j < s.length) :
    (bwtF s).getD j 0 = s.getD ((bwt_sorted_indices s).getD j 0) 0 := by
  unfold bwtF
  exact getD_map_nat _ _ j (by rw [sigma_length]; exact hj)

/-! ### The LF-mapping lemma

In `bwt_decode` run on the last column, the LF entry of row `j` names a row
whose rotation has the same content as the cyclic predecessor of row `j`'s
rotation.  (Content equality is all the reconstruction loop needs; with
periodic inputs the LF entry may name a different row of equal content.) -/

theorem lf_step (s : List Nat) (hn : s.length ≠ 0) (hb : ∀ x ∈ s, x < 256)
    (j : Nat) (hj : j < s.length) :
    (lfList (bwtL s) (cumFromCount (count256 (bwtL s)))).getD j 0 < s.length ∧
    rotation s ((bwt_sorted_indices s).getD
        ((lfList (bwtL s) (cumFromCount (count256 (bwtL s)))).getD j 0) 0) =
      rotation s (((bwt_sorted_indices s).getD j 0 + s.length - 1) % s.length) := by
  have hLlen : (bwtL s).length = s.length := bwtL_length s
  have hLperm : (bwtL s).Perm s := bwtL_perm s hn
  have hLb : ∀ x ∈ bwtL s, x < 256 := fun x hx => hb x (hLperm.mem_iff.mp hx)
  set n := s.length with hndef
  set σ := bwt_sorted_indices s with hσdef
  set L := bwtL s with hLdef
  set c := L.getD j 0 with hcdef
  have hσlen : σ.length = n := sigma_length s
  have hcmem : c ∈ L := by
    rw [hcdef, List.getD_eq_getElem _ _ (by rw [hLlen]; exact hj)]
    exact List.getElem_mem _
  have hc256 : c < 256 := hLb c hcmem
  set k := (L.take j).count c with hkdef
  -- the LF value at row j
  have hlfj : (lfList L (cumFromCount (count256 L))).getD j 0 =
      L.countP (fun x => x < c) + k := by
    rw [lfList_getD L _ hLb j (by rw [hLlen]; exact hj), ← hcdef, ← hkdef]
    congr 1
    rw [cumFromCount_getD _ c (by rw [count256_length]; exact hc256),
      sum_take_count256 L hLb c (by omega)]
  -- the two Bool predicates on indices
  set g : Nat → Nat := fun i => (i + n - 1) % n with hgdef
  set p : Nat → Bool := fun i => s.getD (g i) 0 == c with hpdef
  set q : Nat → Bool := fun i => s.getD i 0 == c with hqdef
  have hL_eq_map : L = σ.map (fun i => s.getD (g i) 0) := rfl
  -- (F1) row j satisfies p
  have hpj : p (σ.getD j 0) = true := by
    rw [hpdef]
    simp only [beq_iff_eq]
    rw [hcdef, bwtL_getD s j hj]
  -- (F2) the prefix count of p-rows is k
  have hcount_pk : List.countP p (σ.take j) = k := by
    rw [hkdef, hL_eq_map, ← List.map_take, List.count_eq_countP, List.countP_map]
    rfl
  -- (F3) filter position of row j among p-rows
  obtain ⟨hkA, hAk⟩ := filter_getD_countP p σ j (by rw [hσlen]; exact hj) hpj
  rw [hcount_pk] at hkA hAk
  -- first column facts
  have hFperm : (bwtF s).Perm s := bwtF_perm s
  have hcountP_LF : L.countP (fun x => x < c) = (bwtF s).countP (fun x => x < c) :=
    (List.Perm.countP_eq _ hLperm).trans (List.Perm.countP_eq _ hFperm).symm
  have hcount_LF : L.count c = (bwtF s).count c :=
    (hLperm.count_eq c).trans ((hFperm.count_eq c)).symm
  -- (F6) k is below the number of c-headed rows
  have hkF : k < (bwtF s).count c := by
    rw [← hcount_LF, hkdef]
    exact count_take_lt L j (by rw [hLlen]; exact hj) c hcdef.symm
  -- (F7) block structure of the sorted first column
  obtain ⟨hb1, hb2, hb3⟩ := sorted_block c (bwtF s) (bwtF_sorted s) k hkF
  rw [← hcountP_LF] at hb1 hb2 hb3
  set j' := L.countP (fun x => x < c) + k with hj'def
  have hj'n : j' < n := by
    have hFn := bwtF_length s
    omega
  -- (F9) row j' satisfies q
  have hqj' : q (σ.getD j' 0) = true := by
    rw [hqdef]
    simp only [beq_iff_eq]
    rw [← bwtF_getD s j' hj'n]
    exact hb2
  -- (F10) the prefix count of q-rows before j' is k
  have hcount_qk : List.countP q (σ.take j') = k := by
    have : (bwtF s).take j' = (σ.take j').map (fun i => s.getD i 0) := by
      rw [bwtF, List.map_take]
    rw [← hb3, this, List.count_eq_countP, List.countP_map]
    rfl
  -- (F11) filter position of row j' among q-rows
  obtain ⟨hkB, hBk⟩ := filter_getD_countP q σ j' (by rw [hσlen]; exact hj'n) hqj'
  rw [hcount_qk] at hkB hBk
  -- (F13) the two sorted lists of c-rotations agree
  set A : List (List Nat) := (σ.filter p).map (fun i => rotation s (g i)) with hAdef
  set B : List (List Nat) := (σ.filter q).map (rotation s) with hBdef
  have hAperm : A.Perm B := by
    have hcomp : p = q ∘ g := by
      funext i
      rfl
    have h1 : A = ((σ.map g).filter q).map (rotation s) := by
      rw [hAdef, hcomp, List.filter_map, List.map_map]
      rfl
    have h2 : (σ.map g).Perm σ := by
      calc (σ.map g).Perm ((List.range n).map g) := (sigma_perm s).map g
        _ = (n - 1) :: List.range (n - 1) := map_pred_range n hn
        _ |>.Perm (List.range n) := by
            obtain ⟨m, hm⟩ := Nat.exists_eq_succ_of_ne_zero hn
            rw [hm, Nat.succ_sub_one, List.range_succ]
            exact (List.perm_append_singleton m (List.range m)).symm
        _ |>.Perm σ := (sigma_perm s).symm
    rw [h1, hBdef]
    exact ((h2.filter q).map (rotation s))
  have hAsorted : A.Pairwise (fun r1 r2 => lexLe r1 r2 = true) := by
    rw [hAdef, List.pairwise_map]
    refine ((sigma_pairwise s).filter p).imp_of_mem ?_
    intro a b ha hb' hle
    have hpa : p a = true := List.of_mem_filter ha
    have hpb : p b = true := List.of_mem_filter hb'
    have han : a < n := sigma_mem_lt s a (List.mem_of_mem_filter ha)
    have hbn : b < n := sigma_mem_lt s b (List.mem_of_mem_filter hb')
    have hpa' : s.getD (g a) 0 = c := by
      have := hpa
      rw [hpdef] at this
      simpa using this
    have hpb' : s.getD (g b) 0 = c := by
      have := hpb
      rw [hpdef] at this
      simpa using this
    rw [show rotation s (g a) = s.getD (g a) 0 :: (rotation s a).dropLast from
        rotation_pred s a hn han,
      show rotation s (g b) = s.getD (g b) 0 :: (rotation s b).dropLast from
        rotation_pred s b hn hbn, hpa', hpb', lexLe_cons_same]
    exact lexLe_dropLast _ _ (by rw [rotation_length s a (by omega),
      rotation_length s b (by omega)]) hle
  have hBsorted : B.Pairwise (fun r1 r2 => lexLe r1 r2 = true) := by
    rw [hBdef, List.pairwise_map]
    exact (sigma_pairwise s).filter q
  have hAB : A = B := by
    refine @List.eq_of_perm_of_sorted _ (fun r1 r2 => lexLe r1 r2 = true)
      ⟨fun a b hab hba => lexLe_antisymm a b hab hba⟩ A B hAperm hAsorted hBsorted
  -- (F4)/(F12): read position k in both lists
  have hAval : A.getD k [] = rotation s (g (σ.getD j 0)) := by
    rw [hAdef, List.getD_eq_getElem _ _ (by rw [List.length_map]; exact hkA),
      List.getElem_map, ← List.getD_eq_getElem _ 0 hkA, hAk]
  have hBval : B.getD k [] = rotation s (σ.getD j' 0) := by
    rw [hBdef, List.getD_eq_getElem _ _ (by rw [List.length_map]; exact hkB),
      List.getElem_map, ← List.getD_eq_getElem _ 0 hkB, hBk]
  refine ⟨by rw [hlfj]; exact hj'n, ?_⟩
  rw [hlfj, ← hBval, ← hAB, hAval]

/-! ### The reconstruction walk of `bwt_decode` -/

theorem rotation_last_eq_of_eq (s : List Nat) (i i' : Nat) (hi : i < s.length)
    (hi' : i' < s.length) (h : rotation s i = rotation s i') :
    s.getD ((i + s.length - 1) % s.length) 0 = s.getD ((i' + s.length - 1) % s.length) 0 := by
  rw [← rotation_getLast s i hi, ← rotation_getLast s i' hi', h]

theorem mod_pred_succ (n i : Nat) (hn : n ≠ 0) (hi : i < n) :
    ((i + 1) % n + n - 1) % n = i := by
  rw [show (i + 1) % n + n - 1 = (i + 1) % n + (n - 1) from by omega, Nat.mod_add_mod,
    show i + 1 + (n - 1) = i + n from by omega, Nat.add_mod_right]
  exact Nat.mod_eq_of_lt hi

theorem drop_take_succ (s : List Nat) (i : Nat) (hi : i < s.length) :
    (s.take (i + 1)).drop i = [s.getD i 0] := by
  have htake : s.take (i + 1) = s.take i ++ [s.getD i 0] := by
    rw [List.take_succ, List.getElem?_eq_getElem hi, ← List.getD_eq_getElem s 0 hi]
    rfl
  rw [htake, List.drop_append_of_le_length (by rw [List.length_take]; omega),
    List.drop_eq_nil_of_le (by rw [List.length_take]; omega), List.nil_append]

/-- Correctness of the reconstruction loop: if row `p` holds (a row whose
rotation has the content of) `rot((i+1) mod n)`, then `m ≤ i+1` steps of the
walk reproduce the `m` input characters ending at position `i`. -/
theorem bwt_walk_correct (s : List Nat) (hn : s.length ≠ 0) (hb : ∀ x ∈ s, x < 256) :
    ∀ (m i : Nat), i < s.length → m ≤ i + 1 → ∀ p, p < s.length →
      rotation s ((bwt_sorted_indices s).getD p 0) = rotation s ((i + 1) % s.length) →
      bwt_walk (bwtL s) (lfList (bwtL s) (cumFromCount (count256 (bwtL s)))) m p =
        some ((s.take (i + 1)).drop (i + 1 - m)) := by
  intro m
  induction m with
  | zero =>
      intro i hi _ p hp hrot
      show some [] = _
      congr 1
      rw [eq_comm, List.drop_eq_nil_iff]
      rw [List.length_take]
      omega
  | succ m ih =>
      intro i hi hm p hp hrot
      have hσp : (bwt_sorted_indices s).getD p 0 < s.length := sigma_getD_lt s p hp
      have hmod : (i + 1) % s.length < s.length := Nat.mod_lt _ (by omega)
      -- the last character of a rotation is determined by its content
      have hhead : s.getD (((bwt_sorted_indices s).getD p 0 + s.length - 1) % s.length) 0 =
          s.getD i 0 := by
        rw [rotation_last_eq_of_eq s _ _ hσp hmod hrot, mod_pred_succ _ _ hn hi]
      -- the character emitted at this step is s[i]
      have hval : (bwtL s).getD p 0 = s.getD i 0 := by
        rw [bwtL_getD s p hp, hhead]
      -- the LF step lands on (a row of content) rot(i)
      obtain ⟨hlf1, hlf2⟩ := lf_step s hn hb p hp
      have h2 := rotation_pred s ((i + 1) % s.length) hn hmod
      rw [mod_pred_succ _ _ hn hi] at h2
      have hpredrow : rotation s ((bwt_sorted_indices s).getD
          ((lfList (bwtL s) (cumFromCount (count256 (bwtL s)))).getD p 0) 0) =
          rotation s i := by
        rw [hlf2, rotation_pred s _ hn hσp, hhead, hrot]
        exact h2.symm
      show (if p < (bwtL s).length then _ else none) = _
      rw [if_pos (by rw [bwtL_length]; exact hp)]
      match m with
      | 0 =>
          show ((some []).map _) = _
          rw [Option.map_some']
          rw [show i + 1 - 1 = i from by omega, drop_take_succ s i hi, hval]
          rfl
      | m + 1 =>
          have hih := ih (i - 1) (by omega) (by omega)
            ((lfList (bwtL s) (cumFromCount (count256 (bwtL s)))).getD p 0) hlf1 ?_
          · rw [hih, Option.map_some']
            congr 1
            rw [show i - 1 + 1 = i from by omega, hval]
            have htake : s.take (i + 1) = s.take i ++ [s.getD i 0] := by
              rw [List.take_succ, List.getElem?_eq_getElem hi, ← List.getD_eq_getElem s 0 hi]
              rfl
            rw [htake, List.drop_append_of_le_length (by rw [List.length_take]; omega),
              show i + 1 - (m + 1 + 1) = i - (m + 1) from by omega]
          · rw [hpredrow]
            congr 1
            rw [show i - 1 + 1 = i from by omega]
            exact (Nat.mod_eq_of_lt hi).symm

/-- Round trip of the BWT core on nonempty byte strings. -/
theorem bwt_decode_encode (s : List Nat) (hne : s ≠ []) (hb : ∀ x ∈ s, x < 256) :
    bwt_decode (bwt_encode s).1 (bwt_encode s).2 = some s := by
  have hn : s.length ≠ 0 := by simpa using hne
  rw [bwt_encode_eq s hn]
  show bwt_decode (bwtL s) ((bwt_sorted_indices s).indexOf 0) = some s
  unfold bwt_decode
  rw [if_neg (by rw [bwtL_length]; exact hn), if_pos ?hall]
  case hall =>
    rw [List.all_eq_true]
    intro x hx
    simpa using hb x ((bwtL_perm s hn).mem_iff.mp hx)
  have hzero_mem : 0 ∈ bwt_sorted_indices s :=
    (sigma_perm s).mem_iff.mpr (List.mem_range.mpr (by omega))
  have hoidx : (bwt_sorted_indices s).indexOf 0 < (bwt_sorted_indices s).length :=
    List.indexOf_lt_length.mpr hzero_mem
  have hσ0 : (bwt_sorted_indices s).getD ((bwt_sorted_indices s).indexOf 0) 0 = 0 := by
    rw [List.getD_eq_getElem _ _ hoidx]
    exact List.getElem_indexOf hoidx
  have hw := bwt_walk_correct s hn hb s.length (s.length - 1) (by omega) (by omega)
    ((bwt_sorted_indices s).indexOf 0) (by rw [← sigma_length s]; exact hoidx) ?_
  · rw [bwtL_length, hw, show s.length - 1 + 1 = s.length from by omega]
    rw [Nat.sub_self, List.drop_zero, List.take_length]
  · rw [hσ0, show s.length - 1 + 1 = s.length from by omega, Nat.mod_self]

theorem banana_sorted_indices :
    bwt_sorted_indices [98, 97, 110, 97, 110, 97] = [5, 3, 1, 0, 4, 2] := by
  unfold bwt_sorted_indices
  rw [show List.range ([98, 97, 110, 97, 110, 97] : List Nat).length = [0, 1, 2, 3, 4, 5]
    from by decide]
  simp [List.mergeSort, List.splitInTwo, List.merge, lexLe, rotation]

/-- **Claim C9** (confirmed).  BWT core round-trip and length preservation:
for every non-empty byte string `s`, `bwt_decode` inverts `bwt_encode` and the
last column has the length of `s`; and on `b"banana"` the encoder produces
last column `b"nnbaaa"` with original index 3. -/
theorem c9_bwt_core_roundtrip :
    (∀ s : List Nat, s ≠ [] → (∀ x ∈ s, x < 256) →
      bwt_decode (bwt_encode s).1 (bwt_encode s).2 = some s ∧
      (bwt_encode s).1.length = s.length) ∧
    bwt_encode [98, 97, 110, 97, 110, 97] = ([110, 110, 98, 97, 97, 97], 3) := by
  constructor
  · intro s hne hb
    refine ⟨bwt_decode_encode s hne hb, ?_⟩
    rw [bwt_encode_eq s (by simpa using hne)]
    exact bwtL_length s
  · rw [bwt_encode_eq _ (by decide)]
    unfold bwtL
    rw [banana_sorted_indices]
    decide

/-- Witness for claim C9 at the concrete input `b"banana"`. -/
theorem c9_bwt_core_roundtrip_witness :
    ([98, 97, 110, 97, 110, 97] : List Nat) ≠ [] ∧
    bwt_decode [110, 110, 98, 97, 97, 97] 3 = some [98, 97, 110, 97, 110, 97] := by
  refine ⟨by decide, ?_⟩
  have h := (c9_bwt_core_roundtrip.1 [98, 97, 110, 97, 110, 97] (by decide) (by decide)).1
  rw [c9_bwt_core_roundtrip.2] at h
  exact h

/-! ## Huffman coder (`src/v0.0.1/huffman.py`)

`Node` objects become the inductive `HTree`; the heap of `heapq` is modelled
by a faithful translation of CPython's `heapq` (`_siftdown`, `_siftup`,
`heappush`, `heappop`, `heapify`) over `(freq, tree)` pairs, with
`Node.__lt__` comparing frequencies only.  The loop functions take explicit
fuel chosen at the call site to dominate the loop bound, so that every
definition is structural (kernel-computable). -/

/-- Huffman tree: a leaf carries a symbol; an internal node two children. -/
inductive HTree where
  | leaf (sym : Nat) : HTree
  | node (l r : HTree) : HTree
deriving DecidableEq

/-- Heap items `(freq, tree)`. -/
abbrev HNode := Nat × HTree

/-- `Node.__lt__`: compare frequencies. -/
def hnodeLt (a b : HNode) : Bool := a.1 < b.1

def heapDefault : HNode := (0, HTree.leaf 0)

/-- `heapq._siftdown(heap, startpos, pos)` with `newitem = heap[pos]` saved by
the caller; fuel `pos + 1` dominates the strictly decreasing `pos`. -/
def siftdownGo : Nat → List HNode → Nat → HNode → Nat → List HNode
  | 0, heap, _, newitem, pos => heap.set pos newitem
  | fuel+1, heap, startpos, newitem, pos =>
      if startpos < pos then
        let parentpos := (pos - 1) / 2
        let parent := heap.getD parentpos heapDefault
        if hnodeLt newitem parent then
          siftdownGo fuel (heap.set pos parent) startpos newitem parentpos
        else heap.set pos newitem
      else heap.set pos newitem

def siftdown (heap : List HNode) (startpos : Nat) (newitem : HNode) (pos : Nat) : List HNode :=
  siftdownGo (pos + 1) heap startpos newitem pos

/-- The descending loop of `heapq._siftup`; fuel `heap.length` dominates the
strictly increasing child position.  Returns the heap and the final `pos`. -/
def siftupGo : Nat → List HNode → Nat → List HNode × Nat
  | 0, heap, pos => (heap, pos)
  | fuel+1, heap, pos =>
      let endpos := heap.length
      let childpos := 2 * pos + 1
      if childpos < endpos then
        let rightpos := childpos + 1
        let childpos :=
          if rightpos < endpos ∧
              hnodeLt (heap.getD childpos heapDefault) (heap.getD rightpos heapDefault) = false
          then rightpos else childpos
        siftupGo fuel (heap.set pos (heap.getD childpos heapDefault)) childpos
      else (heap, pos)

/-- `heapq._siftup(heap, pos)`. -/
def siftup (heap : List HNode) (pos : Nat) : List HNode :=
  let newitem := heap.getD pos heapDefault
  let r := siftupGo heap.length heap pos
  siftdown (r.1.set r.2 newitem) pos newitem r.2

/-- `heapq.heappush`. -/
def heappush (heap : List HNode) (item : HNode) : List HNode :=
  siftdown (heap ++ [item]) 0 item heap.length

/-- `heapq.heappop` (raises on an empty heap). -/
def heappop (heap : List HNode) : Option (HNode × List HNode) :=
  if heap.length = 0 then none
  else
    let lastelt := heap.getD (heap.length - 1) heapDefault
    let rest := heap.dropLast
    if rest.length = 0 then some (lastelt, [])
    else some (rest.getD 0 heapDefault, siftup (rest.set 0 lastelt) 0)

/-- `heapq.heapify`: `for i in reversed(range(n // 2)): _siftup(x, i)`. -/
def heapifyGo (heap : List HNode) : Nat → List HNode
  | 0 => heap
  | i+1 => heapifyGo (siftup heap i) i

def heapify (heap : List HNode) : List HNode := heapifyGo heap (heap.length / 2)

/-- `collections.Counter` key order: first occurrence in the data. -/
def counterKeys (l : List Nat) : List Nat :=
  l.foldl (fun acc x => if x ∈ acc then acc else acc ++ [x]) []

/-- The `while len(heap) > 1` merge loop of `build_huffman_tree`; each round
pops the two smallest nodes and pushes their merge (fuel: initial length). -/
def huffMergeLoop : Nat → List HNode → List HNode
  | 0, heap => heap
  | fuel+1, heap =>
      if heap.length > 1 then
        match heappop heap with
        | none => heap
        | some (n1, h1) =>
            match heappop h1 with
            | none => heap
            | some (n2, h2) => huffMergeLoop fuel (heappush h2 (n1.1 + n2.1, HTree.node n1.2 n2.2))
      else heap

/-- `build_huffman_tree` (returns `heap[0] if heap else None`). -/
def build_huffman_tree (data : List Nat) : Option HTree :=
  let heap := heapify ((counterKeys data).map (fun s => (data.count s, HTree.leaf s)))
  match huffMergeLoop heap.length heap with
  | [] => none
  | root :: _ => some root.2

/-- `build_code_table` with bits as `List Bool` (`false` = '0'); a single-leaf
root gets the code "0" (`prefix or '0'`). -/
def build_code_table : HTree → List Bool → List (Nat × List Bool)
  | HTree.leaf s, pfx => [(s, if pfx = [] then [false] else pfx)]
  | HTree.node l r, pfx => build_code_table l (pfx ++ [false]) ++ build_code_table r (pfx ++ [true])

/-- `''.join(code_table[sym] for sym in data)`; `none` on a missing symbol
(Python `KeyError`, unreachable for symbols of the data). -/
def codeBits (table : List (Nat × List Bool)) : List Nat → Option (List Bool)
  | [] => some []
  | s :: rest =>
      match table.lookup s with
      | none => none
      | some c => (codeBits table rest).map (fun bs => c ++ bs)

/-- A group of 8 bits, MSB first, to a byte (`int(bitstr[i:i+8], 2)`). -/
def bitsToByte (bits : List Bool) : Nat :=
  bits.foldl (fun a b => 2 * a + (if b then 1 else 0)) 0

/-- A byte to its 8 bits MSB first. -/
def byteToBits (b : Nat) : List Bool :=
  (List.range 8).map (fun k => Nat.testBit b (7 - k))

/-- `huffman_encode`: returns the code bytes and the `tree_dict` content
`(tree, padding)`; `none` when `data` is empty (`build_code_table(None)`
raises in Python). -/
def huffman_encode (data : List Nat) : Option (List Nat × (HTree × Nat)) :=
  match build_huffman_tree data with
  | none => none
  | some tree =>
      match codeBits (build_code_table tree []) data with
      | none => none
      | some bits =>
          let padding := (8 - bits.length % 8) % 8
          let allbits := bits ++ List.replicate padding false
          some ((chunkGo 8 allbits.length allbits).map bitsToByte, (tree, padding))

/-- The decode loop of `huffman_decode`: step to a child, then emit and reset
at a leaf.  Stepping from a leaf dereferences `None` in Python
(`AttributeError`), modelled as `none`. -/
def huffman_decode_go (root : HTree) : HTree → List Bool → Option (List Nat)
  | _, [] => some []
  | HTree.leaf _, _ :: _ => none
  | HTree.node l r, bit :: rest =>
      match if bit then r else l with
      | HTree.leaf s => (huffman_decode_go root root rest).map (fun t => s :: t)
      | HTree.node l2 r2 => huffman_decode_go root (HTree.node l2 r2) rest

/-- `huffman_decode` (the `serialize_tree`/`deserialize_tree` pair of nested
tuples is an exact isomorph of `HTree`, modelled as the identity): bytes to
bits, strip the padding, walk the tree. -/
def huffman_decode (data : List Nat) (tree : HTree) (padding : Nat) : Option (List Nat) :=
  let bits := (data.map byteToBits).flatten
  let bits := if padding ≠ 0 then bits.take (bits.length - padding) else bits
  huffman_decode_go tree tree bits

/-- Modelled from the spec: `pickle.dumps` of the Huffman `tree_dict` is
Python's object serialiser (outside the archiver).  Modelled with the
spec's portable schema (§3/§9): pre-order tags `0 = internal`, `1 = leaf`,
leaf symbols ≤ 254 in one byte else `255, lo, hi` (little-endian), and a
final byte holding `padding`. -/
def pickleTree : HTree → List Nat
  | HTree.leaf s => if s ≤ 254 then [1, s] else [1, 255, s % 256, s / 256 % 256]
  | HTree.node l r => 0 :: (pickleTree l ++ pickleTree r)

def pickleTreeDict (td : HTree × Nat) : List Nat := pickleTree td.1 ++ [td.2]

/-- Parser for `pickleTree` (fuel: input length). -/
def unpickleTreeGo : Nat → List Nat → Option (HTree × List Nat)
  | 0, _ => none
  | _, [] => none
  | fuel+1, t :: rest =>
      if t = 1 then
        match rest with
        | [] => none
        | s :: rest2 =>
            if s < 255 then some (HTree.leaf s, rest2)
            else
              match rest2 with
              | lo :: hi :: rest3 => some (HTree.leaf (lo + 256 * hi), rest3)
              | _ => none
      else if t = 0 then
        match unpickleTreeGo fuel rest with
        | none => none
        | some (l, rest2) =>
            match unpickleTreeGo fuel rest2 with
            | none => none
            | some (r, rest3) => some (HTree.node l r, rest3)
      else none

/-- Modelled from the spec: `pickle.loads` of a Huffman `tree_dict`. -/
def unpickleTreeDict (bs : List Nat) : Option (HTree × Nat) :=
  match unpickleTreeGo bs.length bs with
  | some (t, [p]) => some (t, p)
  | _ => none

namespace HuffmanCompressor

/-- `HuffmanCompressor.compress`: `tree_len (u32 BE) + pickled tree_dict +
code bytes`; empty input returns empty output. -/
def compress (data : List Nat) : Option (List Nat) :=
  if data.length = 0 then some []
  else
    match huffman_encode data with
    | none => none
    | some (compressed, td) =>
        let tree_bytes := pickleTreeDict td
        if tree_bytes.length < 2 ^ 32 then
          some (toBytesBE 4 tree_bytes.length ++ (tree_bytes ++ compressed))
        else none

/-- `HuffmanCompressor.decompress`; `bytes(list)` fails on a value ≥ 256. -/
def decompress (data : List Nat) : Option (List Nat) :=
  if data.length = 0 then some []
  else
    let tree_size := fromBytesBE (data.take 4)
    let tree_bytes := (data.drop 4).take tree_size
    let compressed := data.drop (4 + tree_size)
    match unpickleTreeDict tree_bytes with
    | none => none
    | some (tree, padding) =>
        match huffman_decode compressed tree padding with
        | none => none
        | some l => if l.all (fun x => x < 256) then some l else none

end HuffmanCompressor

/-! ## The BWT+RLE+MTF+Huffman composite pipeline (`compressor.py` /
`decompressor.py`) -/

/-- `SORCompressor._bwt_rle_mtf_huffman_compress`: inputs below 8 KiB go
through plain Huffman; larger inputs through block BWT → RLE → MTF → Huffman. -/
def bwt_rle_mtf_huffman_compress (data : List Nat) : Option (List Nat) :=
  if data.length = 0 then some []
  else if data.length < 8 * 1024 then HuffmanCompressor.compress data
  else
    HuffmanCompressor.compress (mtf_encode (rle_encode (bwt_encode_block data (8 * 1024))))

/-- `SORDecompressor._bwt_rle_mtf_huffman_decompress` applied to the payload
(after the `compressed_size` prefix has been read from the stream): the
decoder always applies the full inverse pipeline. -/
def bwt_rle_mtf_huffman_decompress_payload (payload : List Nat) : Option (List Nat) :=
  match HuffmanCompressor.decompress payload with
  | none => none
  | some mtf_data =>
      match mtf_decode mtf_data with
      | none => none
      | some rle_data =>
          match rle_decode rle_data with
          | none => none
          | some bwt_block_data => bwt_decode_block bwt_block_data

set_option maxRecDepth 20000 in
/-- **Claim C3** (code_bug evidence).  The claim states the composite
pipeline round-trips, including inputs below the 8 KiB threshold, which the
encoder sends through plain Huffman.  The decoder has no such fallthrough: it
always applies the MTF/RLE/BWT inverses, so decoding the encoding of the
two-byte input `b"ab"` fails instead of returning it. -/
theorem c3_pipeline_small_input_fails :
    (bwt_rle_mtf_huffman_compress [97, 98]).isSome = true ∧
    (bwt_rle_mtf_huffman_compress [97, 98]).bind bwt_rle_mtf_huffman_decompress_payload =
      none := by
  decide

/-! ### Claim C10: single-symbol Huffman decode crashes -/

theorem toBytesBE_length (w : Nat) : ∀ v, (toBytesBE w v).length = w := by
  induction w with
  | zero => intro v; rfl
  | succ w ih =>
      intro v
      rw [toBytesBE, List.length_append, ih]
      simp

theorem fromBytesBE_toBytesBE (w : Nat) : ∀ v, v < 256 ^ w →
    fromBytesBE (toBytesBE w v) = v := by
  induction w with
  | zero =>
      intro v h
      have : v = 0 := by simpa using h
      subst this
      rfl
  | succ w ih =>
      intro v h
      have hpow : 256 ^ (w + 1) = 256 ^ w * 256 := pow_succ 256 w
      have hdiv : v / 256 < 256 ^ w := by
        rw [Nat.div_lt_iff_lt_mul (by norm_num)]
        omega
      rw [toBytesBE]
      unfold fromBytesBE
      rw [List.foldl_append]
      show fromBytesBE (toBytesBE w (v / 256)) * 256 + v % 256 = v
      rw [ih (v / 256) hdiv]
      omega

theorem counterKeys_aux (b : Nat) : ∀ (n : Nat) (acc : List Nat), b ∈ acc →
    (List.replicate n b).foldl (fun acc x => if x ∈ acc then acc else acc ++ [x]) acc = acc := by
  intro n
  induction n with
  | zero => intro acc _; rfl
  | succ n ih =>
      intro acc hacc
      rw [List.replicate_succ, List.foldl_cons, if_pos hacc]
      exact ih acc hacc

theorem counterKeys_replicate (b n : Nat) (hn : n ≠ 0) :
    counterKeys (List.replicate n b) = [b] := by
  obtain ⟨m, rfl⟩ := Nat.exists_eq_succ_of_ne_zero hn
  unfold counterKeys
  rw [List.replicate_succ, List.foldl_cons, if_neg (by simp), List.nil_append]
  exact counterKeys_aux b m [b] (by simp)

theorem heapify_singleton (x : HNode) : heapify [x] = [x] := by
  unfold heapify
  rw [show ([x].length / 2) = 0 from by simp]
  rfl

theorem build_huffman_tree_replicate (b n : Nat) (hn : n ≠ 0) :
    build_huffman_tree (List.replicate n b) = some (HTree.leaf b) := by
  unfold build_huffman_tree
  rw [counterKeys_replicate b n hn]
  simp only [List.map_cons, List.map_nil, heapify_singleton]
  rfl

theorem codeBits_replicate (b : Nat) : ∀ n,
    codeBits [(b, [false])] (List.replicate n b) = some (List.replicate n false) := by
  intro n
  induction n with
  | zero => rfl
  | succ n ih =>
      rw [List.replicate_succ]
      show (match List.lookup b [(b, [false])] with
        | none => none
        | some c => (codeBits [(b, [false])] (List.replicate n b)).map (fun bs => c ++ bs)) = _
      rw [List.lookup_cons_self, ih]
      show some ([false] ++ List.replicate n false) = _
      rw [show ([false] ++ List.replicate n false) = List.replicate (n + 1) false from by
        rw [List.replicate_succ]
        rfl]

theorem huffman_encode_replicate (b n : Nat) (hn : n ≠ 0) :
    huffman_encode (List.replicate n b) =
      some ((chunkGo 8 (n + (8 - n % 8) % 8)
          (List.replicate (n + (8 - n % 8) % 8) false)).map bitsToByte,
        (HTree.leaf b, (8 - n % 8) % 8)) := by
  unfold huffman_encode
  rw [build_huffman_tree_replicate b n hn]
  show (match codeBits (build_code_table (HTree.leaf b) []) (List.replicate n b) with
    | none => none
    | some bits => _) = _
  rw [show build_code_table (HTree.leaf b) [] = [(b, [false])] from rfl, codeBits_replicate b n]
  simp only [List.length_replicate, ← List.replicate_add]

theorem chunkGo_ne_nil {α : Type} (bs fuel : Nat) (l : List α) (hf : fuel ≠ 0) (hl : l ≠ []) :
    chunkGo bs fuel l ≠ [] := by
  obtain ⟨f, rfl⟩ := Nat.exists_eq_succ_of_ne_zero hf
  rw [chunkGo_succ, if_neg (by simpa using hl)]
  simp

theorem byteToBits_length (b : Nat) : (byteToBits b).length = 8 := by
  rw [byteToBits, List.length_map, List.length_range]

theorem flatten_byteToBits_length (l : List Nat) :
    ((l.map byteToBits).flatten).length = 8 * l.length := by
  induction l with
  | nil => rfl
  | cons x xs ih =>
      rw [List.map_cons, List.flatten_cons, List.length_append, ih, byteToBits_length,
        List.length_cons]
      omega

/-- **Claim C10** (confirmed).  For a non-empty input whose bytes are all one
value, `HuffmanCompressor.compress` succeeds (the single symbol gets code "0"
from the leaf root), but `decompress` of that output fails: the decode loop
steps from the leaf root to a nonexistent child before testing for a leaf. -/
theorem c10_single_symbol_huffman_crash (b n : Nat) (hb : b < 256) (hn : 1 ≤ n) :
    (HuffmanCompressor.compress (List.replicate n b)).isSome = true ∧
    (HuffmanCompressor.compress (List.replicate n b)).bind HuffmanCompressor.decompress =
      none := by
  have hn0 : n ≠ 0 := by omega
  set padding := (8 - n % 8) % 8 with hpad
  have hpad8 : padding < 8 := by
    rw [hpad]
    omega
  set tb := pickleTreeDict (HTree.leaf b, padding) with htb
  have htb_val : tb = if b ≤ 254 then [1, b, padding] else [1, 255, b % 256, b / 256 % 256, padding] := by
    rw [htb]
    unfold pickleTreeDict pickleTree
    by_cases hb254 : b ≤ 254
    · rw [if_pos hb254, if_pos hb254]
      rfl
    · rw [if_neg hb254, if_neg hb254]
      rfl
  have htb_len : tb.length < 2 ^ 32 := by
    rw [htb_val]
    by_cases hb254 : b ≤ 254
    · rw [if_pos hb254]
      norm_num
    · rw [if_neg hb254]
      norm_num
  set comp := (chunkGo 8 (n + padding) (List.replicate (n + padding) false)).map bitsToByte
    with hcomp
  have hcompress : HuffmanCompressor.compress (List.replicate n b) =
      some (toBytesBE 4 tb.length ++ (tb ++ comp)) := by
    unfold HuffmanCompressor.compress
    rw [if_neg (by rw [List.length_replicate]; exact hn0), huffman_encode_replicate b n hn0]
    show (if tb.length < 2 ^ 32 then some (toBytesBE 4 tb.length ++ (tb ++ comp)) else none) = _
    rw [if_pos htb_len]
  have hunpickle : unpickleTreeDict tb = some (HTree.leaf b, padding) := by
    rw [htb_val]
    by_cases hb254 : b ≤ 254
    · rw [if_pos hb254]
      unfold unpickleTreeDict
      show (match unpickleTreeGo 3 [1, b, padding] with
        | some (t, [p]) => some (t, p)
        | _ => none) = _
      rw [show unpickleTreeGo 3 [1, b, padding] = some (HTree.leaf b, [padding]) from by
        unfold unpickleTreeGo
        rw [if_pos rfl]
        show (if b < 255 then some (HTree.leaf b, [padding]) else _) = _
        rw [if_pos (by omega)]]
    · rw [if_neg hb254]
      unfold unpickleTreeDict
      show (match unpickleTreeGo 5 [1, 255, b % 256, b / 256 % 256, padding] with
        | some (t, [p]) => some (t, p)
        | _ => none) = _
      rw [show unpickleTreeGo 5 [1, 255, b % 256, b / 256 % 256, padding] =
          some (HTree.leaf (b % 256 + 256 * (b / 256 % 256)), [padding]) from by
        unfold unpickleTreeGo
        rw [if_pos rfl]
        show (if (255:Nat) < 255 then _ else _) = _
        rw [if_neg (by omega)]]
      have : b % 256 + 256 * (b / 256 % 256) = b := by omega
      rw [this]
  have hlen_comp : 1 ≤ comp.length := by
    rw [hcomp, List.length_map]
    have := chunkGo_ne_nil 8 (n + padding) (List.replicate (n + padding) (false : Bool))
      (by omega) (by simp; omega)
    rcases h' : chunkGo 8 (n + padding) (List.replicate (n + padding) (false : Bool))
      with _ | ⟨c, cs⟩
    · exact absurd h' this
    · simp
  have hflat : ((comp.map byteToBits).flatten).length = 8 * comp.length :=
    flatten_byteToBits_length comp
  have hdecode : huffman_decode comp (HTree.leaf b) padding = none := by
    have hbits_ne : ∀ bits : List Bool, bits ≠ [] →
        huffman_decode_go (HTree.leaf b) (HTree.leaf b) bits = none := by
      intro bits hne
      match bits with
      | [] => exact absurd rfl hne
      | x :: rest => rfl
    show huffman_decode_go (HTree.leaf b) (HTree.leaf b)
        (if padding ≠ 0 then ((comp.map byteToBits).flatten).take
            (((comp.map byteToBits).flatten).length - padding)
          else (comp.map byteToBits).flatten) = none
    apply hbits_ne
    by_cases hp0 : padding ≠ 0
    · rw [if_pos hp0]
      intro hcontra
      have := congrArg List.length hcontra
      rw [List.length_take, hflat] at this
      simp at this
      omega
    · rw [if_neg hp0]
      intro hcontra
      have := congrArg List.length hcontra
      rw [hflat, List.length_nil] at this
      omega
  have hdecomp : HuffmanCompressor.decompress (toBytesBE 4 tb.length ++ (tb ++ comp)) =
      none := by
    have e1 : ((toBytesBE 4 tb.length ++ (tb ++ comp)).take 4) = toBytesBE 4 tb.length := by
      rw [List.take_append_of_le_length (by rw [toBytesBE_length]),
        List.take_of_length_le (by rw [toBytesBE_length])]
    have e2 : fromBytesBE (toBytesBE 4 tb.length) = tb.length :=
      fromBytesBE_toBytesBE 4 tb.length (by
        calc tb.length < 2 ^ 32 := htb_len
          _ ≤ 256 ^ 4 := by norm_num)
    have e3 : ((toBytesBE 4 tb.length ++ (tb ++ comp)).drop 4) = tb ++ comp :=
      List.drop_left' (toBytesBE_length 4 tb.length)
    have e4 : ((tb ++ comp).take tb.length) = tb := List.take_left' rfl
    have e5 : ((toBytesBE 4 tb.length ++ (tb ++ comp)).drop (4 + tb.length)) = comp := by
      rw [← List.drop_drop, e3, List.drop_left' rfl]
    unfold HuffmanCompressor.decompress
    rw [if_neg (by rw [List.length_append, toBytesBE_length]; omega)]
    simp only [e1, e2, e3, e4, e5, hunpickle, hdecode]
  refine ⟨by rw [hcompress]; rfl, ?_⟩
  rw [hcompress]
  show HuffmanCompressor.decompress (toBytesBE 4 tb.length ++ (tb ++ comp)) = none
  exact hdecomp

/-- Witness for claim C10 at `n = 3`, `b = 97`. -/
theorem c10_single_symbol_huffman_crash_witness :
    (97 : Nat) < 256 ∧ (1 : Nat) ≤ 3 ∧
    ((HuffmanCompressor.compress (List.replicate 3 97)).isSome = true ∧
      (HuffmanCompressor.compress (List.replicate 3 97)).bind HuffmanCompressor.decompress =
        none) :=
  ⟨by decide, by decide, c10_single_symbol_huffman_crash 97 3 (by decide) (by decide)⟩

/-! ## pattern_subst.py (v0.0.2): pattern substitution codec (claim C7) -/

/-- `SUBST_CODES = list(range(0xF0, 0x100))`. -/
def SUBST_CODES : List Nat := (List.range 16).map (fun k => 240 + k)

/-- One `patterns[key] += 1` step of a `collections.Counter` kept as an
association list in key insertion order. -/
def counterInc (c : List (List Nat × Nat)) (k : List Nat) : List (List Nat × Nat) :=
  if c.any (fun p => p.1 == k) then
    c.map (fun p => if p.1 == k then (p.1, p.2 + 1) else p)
  else c ++ [(k, 1)]

/-- The pattern-frequency Counter of `pattern_encode`: all substrings
`data[i:i+l]` for `l` in `minlen..maxlen` and `i` in `range(len(data)-l+1)`
(no iterations when `l > len(data)`, as Python's `range` of a non-positive
bound is empty). -/
def patternCounter (data : List Nat) (minlen maxlen : Nat) : List (List Nat × Nat) :=
  ((List.range' minlen (maxlen + 1 - minlen)).flatMap (fun l =>
    if l ≤ data.length then
      (List.range (data.length - l + 1)).map (fun i => (data.drop i).take l)
    else [])).foldl counterInc []

/-- Stable insertion (descending by count, ties keep input order). -/
def insertDesc (x : List Nat × Nat) : List (List Nat × Nat) → List (List Nat × Nat)
  | [] => [x]
  | y :: ys => if x.2 < y.2 then y :: insertDesc x ys else x :: y :: ys

/-- Stable descending sort by count; equals Python's
`sorted(items, key=count, reverse=True)` (a stable sort with a fixed order is
unique, so any stable implementation matches). -/
def sortDesc : List (List Nat × Nat) → List (List Nat × Nat)
  | [] => []
  | x :: xs => insertDesc x (sortDesc xs)

/-- `Counter.most_common(n)` = `heapq.nlargest(n, items, key=count)`, which is
documented as `sorted(items, key=count, reverse=True)[:n]` (stable). -/
def most_common (c : List (List Nat × Nat)) (n : Nat) : List (List Nat × Nat) :=
  (sortDesc c).take n

/-- One iteration of the table-building loop of `pattern_encode`: skip if the
pattern is already used or shorter than `minlen`, stop adding once all 16
codes are assigned, else assign the next code `SUBST_CODES[len(subst_table)]`. -/
def substStep (minlen : Nat) (table : List (Nat × List Nat)) (p : List Nat × Nat) :
    List (Nat × List Nat) :=
  if table.any (fun e => e.2 == p.1) || decide (p.1.length < minlen) then table
  else if SUBST_CODES.length ≤ table.length then table
  else table ++ [(SUBST_CODES.getD table.length 0, p.1)]

/-- The `subst_table` dict (insertion order) built from `most_common(topn)`. -/
def buildSubstTable (pats : List (List Nat × Nat)) (minlen : Nat) : List (Nat × List Nat) :=
  pats.foldl (substStep minlen) []

/-- The inner `for code, pat in subst_table.items()` search of the encode
loop: first table entry whose pattern equals `data[i:i+len(pat)]`; returns
the code and the pattern length. -/
def findMatch : List (Nat × List Nat) → List Nat → Option (Nat × Nat)
  | [], _ => none
  | (code, pat) :: t, rest =>
      if rest.take pat.length == pat then some (code, pat.length) else findMatch t rest

/-- The `while i < len(data)` rewrite loop of `pattern_encode` (fuel: each
iteration consumes at least one byte, so `data.length` fuel suffices). -/
def pattern_encode_go (table : List (Nat × List Nat)) : Nat → List Nat → List Nat
  | 0, _ => []
  | fuel + 1, rest =>
      match rest with
      | [] => []
      | b :: _ =>
          match findMatch table rest with
          | some (code, l) => code :: pattern_encode_go table fuel (rest.drop l)
          | none => b :: pattern_encode_go table fuel (rest.drop 1)

/-- `pattern_encode(data)` with the default `minlen=2, maxlen=8, topn=8`. -/
def pattern_encode (data : List Nat) : List Nat × List (Nat × List Nat) :=
  let table := buildSubstTable (most_common (patternCounter data 2 8) 8) 2
  (pattern_encode_go table data.length data, table)

/-- `pattern_decode(data, subst_table)`: expand table codes, copy other bytes. -/
def pattern_decode (data : List Nat) (table : List (Nat × List Nat)) : List Nat :=
  data.flatMap (fun b =>
    match table.lookup b with
    | some pat => pat
    | none => [b])

/-- Invariant of every table `pattern_encode` builds: codes are
`240, 241, ...` in order and every pattern is nonempty. -/
def goodTable (t : List (Nat × List Nat)) : Prop :=
  t.map Prod.fst = (List.range t.length).map (fun k => 240 + k) ∧ ∀ e ∈ t, e.2 ≠ []

theorem SUBST_CODES_getD (k : Nat) (hk : k < 16) : SUBST_CODES.getD k 0 = 240 + k := by
  interval_cases k <;> rfl

theorem substStep_good (t : List (Nat × List Nat)) (p : List Nat × Nat)
    (ht : goodTable t) : goodTable (substStep 2 t p) := by
  unfold substStep
  by_cases h1 : (t.any (fun e => e.2 == p.1) || decide (p.1.length < 2)) = true
  · rw [if_pos h1]
    exact ht
  · rw [if_neg h1]
    by_cases h2 : SUBST_CODES.length ≤ t.length
    · rw [if_pos h2]
      exact ht
    · rw [if_neg h2]
      have hlen16 : t.length < 16 := by
        have hsc : SUBST_CODES.length = 16 := rfl
        omega
      rw [Bool.or_eq_true] at h1
      push_neg at h1
      have hp2 : 2 ≤ p.1.length := by
        have := h1.2
        simp at this
        omega
      constructor
      · rw [List.map_append, ht.1, List.length_append, List.length_cons, List.length_nil,
          List.range_succ, List.map_append, SUBST_CODES_getD t.length hlen16]
        rfl
      · intro e he
        rcases List.mem_append.mp he with h | h
        · exact ht.2 e h
        · have he' : e = (SUBST_CODES.getD t.length 0, p.1) := by simpa using h
          subst he'
          intro hcontra
          have hp1 : p.1 = [] := hcontra
          rw [hp1] at hp2
          simp at hp2

theorem foldl_substStep_good (pats : List (List Nat × Nat)) :
    ∀ acc, goodTable acc → goodTable (pats.foldl (substStep 2) acc) := by
  induction pats with
  | nil => intro acc h; exact h
  | cons p ps ih =>
      intro acc h
      rw [List.foldl_cons]
      exact ih _ (substStep_good acc p h)

theorem buildSubstTable_good (pats : List (List Nat × Nat)) :
    goodTable (buildSubstTable pats 2) :=
  foldl_substStep_good pats [] ⟨rfl, by intro e he; cases he⟩

theorem goodTable_nodup (t : List (Nat × List Nat)) (ht : goodTable t) :
    (t.map Prod.fst).Nodup := by
  rw [ht.1]
  exact List.Nodup.map (fun a b h => by omega) (List.nodup_range t.length)

theorem goodTable_codes (t : List (Nat × List Nat)) (ht : goodTable t) :
    ∀ e ∈ t, 240 ≤ e.1 := by
  intro e he
  have hmem : e.1 ∈ t.map Prod.fst := List.mem_map_of_mem Prod.fst he
  rw [ht.1] at hmem
  obtain ⟨k, _, hk⟩ := List.mem_map.mp hmem
  omega

theorem findMatch_mem (s : List Nat) : ∀ (t : List (Nat × List Nat)) (code l : Nat),
    findMatch t s = some (code, l) → code ∈ t.map Prod.fst := by
  intro t
  induction t with
  | nil => intro code l h; cases h
  | cons e rest ih =>
      obtain ⟨c0, p0⟩ := e
      intro code l h
      rw [show findMatch ((c0, p0) :: rest) s =
          (if s.take p0.length == p0 then some (c0, p0.length) else findMatch rest s)
        from rfl] at h
      by_cases hm : (s.take p0.length == p0) = true
      · rw [if_pos hm] at h
        simp only [Option.some.injEq, Prod.mk.injEq] at h
        rw [List.map_cons]
        exact h.1 ▸ List.mem_cons_self c0 _
      · rw [if_neg hm] at h
        rw [List.map_cons]
        exact List.mem_cons_of_mem c0 (ih code l h)

theorem findMatch_spec (s : List Nat) : ∀ (t : List (Nat × List Nat)),
    (t.map Prod.fst).Nodup → (∀ e ∈ t, e.2 ≠ []) →
    ∀ code l, findMatch t s = some (code, l) →
    ∃ pat, t.lookup code = some pat ∧ pat.length = l ∧ s.take l = pat ∧ 1 ≤ l := by
  intro t
  induction t with
  | nil => intro _ _ code l h; cases h
  | cons e rest ih =>
      obtain ⟨c0, p0⟩ := e
      intro hnodup hne code l h
      rw [show findMatch ((c0, p0) :: rest) s =
          (if s.take p0.length == p0 then some (c0, p0.length) else findMatch rest s)
        from rfl] at h
      by_cases hm : (s.take p0.length == p0) = true
      · rw [if_pos hm] at h
        simp only [Option.some.injEq, Prod.mk.injEq] at h
        obtain ⟨hc, hl⟩ := h
        subst hc
        subst hl
        refine ⟨p0, List.lookup_cons_self, rfl, eq_of_beq hm, ?_⟩
        have hp0 : p0 ≠ [] := hne (c0, p0) (List.mem_cons_self _ _)
        have : 0 < p0.length := List.length_pos.mpr hp0
        omega
      · rw [if_neg hm] at h
        rw [List.map_cons] at hnodup
        obtain ⟨pat, hlook, hlen, htake, hl1⟩ :=
          ih hnodup.of_cons (fun e he => hne e (List.mem_cons_of_mem _ he)) code l h
        have hcode_mem : code ∈ rest.map Prod.fst := findMatch_mem s rest code l h
        have hc0 : c0 ≠ code := by
          intro hcontra
          exact (List.nodup_cons.mp hnodup).1 (hcontra ▸ hcode_mem)
        refine ⟨pat, ?_, hlen, htake, hl1⟩
        rw [show List.lookup code ((c0, p0) :: rest) =
            (match code == c0 with
              | true => some p0
              | false => List.lookup code rest) from rfl,
          beq_eq_false_iff_ne.mpr (fun e => hc0 e.symm)]
        exact hlook

theorem lookup_none_of_lt (b : Nat) (hb : b < 240) : ∀ (t : List (Nat × List Nat)),
    (∀ e ∈ t, 240 ≤ e.1) → List.lookup b t = none := by
  intro t
  induction t with
  | nil => intro _; rfl
  | cons e rest ih =>
      obtain ⟨c0, p0⟩ := e
      intro hcodes
      have hc0 : 240 ≤ c0 := hcodes (c0, p0) (List.mem_cons_self _ _)
      rw [show List.lookup b ((c0, p0) :: rest) =
          (match b == c0 with
            | true => some p0
            | false => List.lookup b rest) from rfl,
        beq_eq_false_iff_ne.mpr (by omega : b ≠ c0)]
      exact ih (fun e he => hcodes e (List.mem_cons_of_mem _ he))

theorem pattern_decode_cons (t : List (Nat × List Nat)) (x : Nat) (xs : List Nat) :
    pattern_decode (x :: xs) t =
      (match t.lookup x with
        | some pat => pat
        | none => [x]) ++ pattern_decode xs t := by
  unfold pattern_decode
  rw [List.flatMap_cons]

theorem pattern_encode_go_roundtrip (t : List (Nat × List Nat))
    (hnodup : (t.map Prod.fst).Nodup) (hne : ∀ e ∈ t, e.2 ≠ [])
    (hcodes : ∀ e ∈ t, 240 ≤ e.1) :
    ∀ fuel s, s.length ≤ fuel → (∀ b ∈ s, b < 240) →
    pattern_decode (pattern_encode_go t fuel s) t = s := by
  intro fuel
  induction fuel with
  | zero =>
      intro s hs _
      have : s = [] := List.eq_nil_of_length_eq_zero (by omega)
      subst this
      rfl
  | succ fuel ih =>
      intro s hs hb
      match s with
      | [] => rfl
      | b :: rest =>
          rw [show pattern_encode_go t (fuel + 1) (b :: rest) =
              (match findMatch t (b :: rest) with
                | some (code, l) => code :: pattern_encode_go t fuel ((b :: rest).drop l)
                | none => b :: pattern_encode_go t fuel ((b :: rest).drop 1)) from rfl]
          cases hfm : findMatch t (b :: rest) with
          | none =>
              rw [pattern_decode_cons,
                lookup_none_of_lt b (hb b (List.mem_cons_self _ _)) t hcodes]
              show [b] ++ pattern_decode (pattern_encode_go t fuel rest) t = b :: rest
              rw [ih rest (by simp at hs ⊢; omega)
                (fun x hx => hb x (List.mem_cons_of_mem _ hx))]
              rfl
          | some cl =>
              obtain ⟨code, l⟩ := cl
              obtain ⟨pat, hlook, hlen, htake, hl1⟩ :=
                findMatch_spec (b :: rest) t hnodup hne code l hfm
              rw [pattern_decode_cons, hlook]
              show pat ++ pattern_decode (pattern_encode_go t fuel ((b :: rest).drop l)) t =
                b :: rest
              rw [ih ((b :: rest).drop l)
                (by rw [List.length_drop]; simp at hs ⊢; omega)
                (fun x hx => hb x (List.mem_of_mem_drop hx)),
                ← htake, List.take_append_drop]

/-- Counterexample for claim C7: on `bytes([1, 2, 1, 2, 0xF0])` the encoder
emits the unmatched literal byte `0xF0` unchanged while also assigning `0xF0`
as the substitution code of the pattern `[1, 2]`, so the decoder expands the
literal and returns `[1, 2, 1, 2, 1, 2]`, not the input. -/
theorem c7_pattern_roundtrip_fails :
    pattern_decode (pattern_encode [1, 2, 1, 2, 240]).1 (pattern_encode [1, 2, 1, 2, 240]).2 ≠
      [1, 2, 1, 2, 240] := by
  decide

/-- **Claim C7** (corrected).  The claimed round-trip
`pattern_decode (pattern_encode s) = s` fails for inputs containing bytes in
`0xF0..0xFF` (see `c7_pattern_roundtrip_fails`); it holds whenever every byte
of the input is below `0xF0`, the codes' reserved range. -/
theorem c7_pattern_roundtrip_lowbytes (s : List Nat) (h : ∀ b ∈ s, b < 240) :
    pattern_decode (pattern_encode s).1 (pattern_encode s).2 = s := by
  have hg := buildSubstTable_good (most_common (patternCounter s 2 8) 8)
  exact pattern_encode_go_roundtrip _ (goodTable_nodup _ hg) hg.2 (goodTable_codes _ hg)
    s.length s le_rfl h

/-- Witness for claim C7 at `s = [1, 2, 1, 2]` (encoded as two table codes). -/
theorem c7_pattern_roundtrip_lowbytes_witness :
    (∀ b ∈ [1, 2, 1, 2], b < 240) ∧
    pattern_decode (pattern_encode [1, 2, 1, 2]).1 (pattern_encode [1, 2, 1, 2]).2 =
      [1, 2, 1, 2] :=
  ⟨by decide, c7_pattern_roundtrip_lowbytes [1, 2, 1, 2] (by decide)⟩


/-! ## arithmetic.py: 32-bit arithmetic coder (claim C8) -/

/-- Coder constants: `PRECISION = 32`, `MAX_RANGE = 1 << 32`, `MASK`, `HALF`,
`QUARTER`.  Low/high/value are modelled as `Int` with Python's floor division
(`Int.fdiv`) and `% MAX_RANGE` for `& MASK`; `| 1` and `| bit` after a left
shift masked to 32 bits add to an even number, hence `+ 1` / `+ bit`. -/
def PRECISION : Nat := 32
def MAX_RANGE : Int := 4294967296
def MASK : Int := MAX_RANGE - 1
def HALF : Int := 2147483648
def QUARTER : Int := 1073741824

def insertNat (x : Nat) : List Nat → List Nat
  | [] => [x]
  | y :: ys => if x ≤ y then x :: y :: ys else y :: insertNat x ys

def sortNat : List Nat → List Nat
  | [] => []
  | x :: xs => insertNat x (sortNat xs)

def freqPairs (data : List Nat) : List (Nat × Nat) :=
  (counterKeys data).map (fun s => (s, data.count s))

def freqOf (freq : List (Nat × Nat)) (s : Nat) : Int := (((freq.lookup s).getD 0 : Nat) : Int)

def totalOf (freq : List (Nat × Nat)) : Nat := (freq.map Prod.snd).sum

def symbolsOf (freq : List (Nat × Nat)) : List Nat := sortNat (freq.map Prod.fst)

def cumPairs (freq : List (Nat × Nat)) : List (Nat × Int) :=
  ((symbolsOf freq).foldl
    (fun acc s => (acc.1 ++ [(s, acc.2)], acc.2 + freqOf freq s))
    (([], 0) : List (Nat × Int) × Int)).1

def cumOf (cum : List (Nat × Int)) (s : Nat) : Int := (cum.lookup s).getD 0

structure AEnc where
  low : Int
  high : Int
  pending : Nat
  bits : List Bool
  deriving DecidableEq

def encNorm : Nat → AEnc → AEnc
  | 0, st => st
  | fuel + 1, st =>
      if st.high < HALF then
        encNorm fuel { low := st.low * 2 % MAX_RANGE,
                       high := st.high * 2 % MAX_RANGE + 1,
                       pending := 0,
                       bits := st.bits ++ [false] ++ List.replicate st.pending true }
      else if HALF ≤ st.low then
        encNorm fuel { low := (st.low - HALF) * 2 % MAX_RANGE,
                       high := (st.high - HALF) * 2 % MAX_RANGE + 1,
                       pending := 0,
                       bits := st.bits ++ [true] ++ List.replicate st.pending false }
      else if QUARTER ≤ st.low ∧ st.high < 3 * QUARTER then
        encNorm fuel { low := (st.low - QUARTER) * 2 % MAX_RANGE,
                       high := (st.high - QUARTER) * 2 % MAX_RANGE + 1,
                       pending := st.pending + 1,
                       bits := st.bits }
      else st

def encStep (cum : List (Nat × Int)) (freq : List (Nat × Nat)) (total : Int)
    (st : AEnc) (d : Nat) : AEnc :=
  let r := st.high - st.low + 1
  encNorm 64 { low := st.low + Int.fdiv (r * cumOf cum d) total,
               high := st.low + Int.fdiv (r * (cumOf cum d + freqOf freq d)) total - 1,
               pending := st.pending,
               bits := st.bits }

def encFinish (st : AEnc) : List Bool :=
  if st.low < QUARTER then st.bits ++ [false] ++ List.replicate (st.pending + 1) true
  else st.bits ++ [true] ++ List.replicate (st.pending + 1) false

def packBits (bits : List Bool) : List Nat :=
  (chunkGo 8 (bits.length + (8 - bits.length % 8) % 8)
    (bits ++ List.replicate ((8 - bits.length % 8) % 8) false)).map bitsToByte

def arithmetic_encode (data : List Nat) :
    List Nat × (List (Nat × Nat) × Nat × Nat × Nat) :=
  let freq := freqPairs data
  let cum := cumPairs freq
  let stF := data.foldl (encStep cum freq ((totalOf freq : Nat) : Int))
    { low := 0, high := MASK, pending := 0, bits := [] }
  (packBits (encFinish stF), (freq, totalOf freq, PRECISION, data.length))

structure ADec where
  low : Int
  high : Int
  value : Int
  pos : Nat
  deriving DecidableEq

def readBit (bits : List Bool) (pos : Nat) : Int := if bits.getD pos false then 1 else 0

def initValue (bits : List Bool) : Int :=
  (List.range PRECISION).foldl (fun v k => v * 2 + readBit bits k) 0

def decNorm (bits : List Bool) : Nat → ADec → ADec
  | 0, st => st
  | fuel + 1, st =>
      if st.high < HALF then
        decNorm bits fuel { low := st.low * 2 % MAX_RANGE,
                            high := st.high * 2 % MAX_RANGE + 1,
                            value := st.value * 2 % MAX_RANGE + readBit bits st.pos,
                            pos := st.pos + 1 }
      else if HALF ≤ st.low then
        decNorm bits fuel { low := (st.low - HALF) * 2 % MAX_RANGE,
                            high := (st.high - HALF) * 2 % MAX_RANGE + 1,
                            value := (st.value - HALF) * 2 % MAX_RANGE + readBit bits st.pos,
                            pos := st.pos + 1 }
      else if QUARTER ≤ st.low ∧ st.high < 3 * QUARTER then
        decNorm bits fuel { low := (st.low - QUARTER) * 2 % MAX_RANGE,
                            high := (st.high - QUARTER) * 2 % MAX_RANGE + 1,
                            value := (st.value - QUARTER) * 2 % MAX_RANGE + readBit bits st.pos,
                            pos := st.pos + 1 }
      else st

def findSymbol (cum : List (Nat × Int)) (freq : List (Nat × Nat)) (x : Int) :
    List Nat → Option Nat
  | [] => none
  | s :: rest =>
      if cumOf cum s ≤ x ∧ x < cumOf cum s + freqOf freq s then some s
      else findSymbol cum freq x rest

def decLoop (bits : List Bool) (symbols : List Nat) (cum : List (Nat × Int))
    (freq : List (Nat × Nat)) (total : Int) :
    Nat → List Nat × ADec → List Nat × ADec
  | 0, st => st
  | n + 1, (out, st) =>
      let r := st.high - st.low + 1
      let x := Int.fdiv ((st.value - st.low + 1) * total - 1) r
      match findSymbol cum freq x symbols with
      | none => decLoop bits symbols cum freq total n (out, st)
      | some s =>
          let st' := decNorm bits 64
            { low := st.low + Int.fdiv (r * cumOf cum s) total,
              high := st.low + Int.fdiv (r * (cumOf cum s + freqOf freq s)) total - 1,
              value := st.value,
              pos := st.pos }
          decLoop bits symbols cum freq total n (out ++ [s], st')

def arithmetic_decode (data : List Nat) (model : List (Nat × Nat) × Nat × Nat × Nat) :
    List Nat :=
  let freq := model.1
  let n := model.2.2.2
  let cum := cumPairs freq
  let bits := (data.map byteToBits).flatten
  (decLoop bits (symbolsOf freq) cum freq ((model.2.1 : Nat) : Int) n
    ([], { low := 0, high := MASK, value := initValue bits, pos := PRECISION })).1

set_option maxRecDepth 100000 in
/-- Evaluation evidence for claim C8: `arithmetic_decode` inverts
`arithmetic_encode` on sample inputs (b"banana" with its model
`{98: 1, 97: 3, 110: 2}`, an alternating pair, a single symbol, and eight
distinct digits).  This checks the embedding end to end against the coder's
own `__main__` round-trip test but does not settle the universally
quantified claim. -/
theorem arithmetic_roundtrip_samples :
    arithmetic_decode (arithmetic_encode [98, 97, 110, 97, 110, 97]).1
        (arithmetic_encode [98, 97, 110, 97, 110, 97]).2 = [98, 97, 110, 97, 110, 97] ∧
    arithmetic_decode (arithmetic_encode [0, 1, 0, 1, 0, 1, 0, 1]).1
        (arithmetic_encode [0, 1, 0, 1, 0, 1, 0, 1]).2 = [0, 1, 0, 1, 0, 1, 0, 1] ∧
    arithmetic_decode (arithmetic_encode [5]).1 (arithmetic_encode [5]).2 = [5] ∧
    arithmetic_decode (arithmetic_encode [3, 1, 4, 1, 5, 9, 2, 6]).1
        (arithmetic_encode [3, 1, 4, 1, 5, 9, 2, 6]).2 = [3, 1, 4, 1, 5, 9, 2, 6] := by
  decide

/-! ## ArithmeticCompressor wrapper and the BWT_RLE_MTF_ARITHMETIC pipeline -/

/-- Modelled from the spec: `pickle.dumps(model)` for the arithmetic model
`{freq, total, precision, len}`, replaced per spec section 9 by the portable
schema — the freq map as `count (u32 BE)` followed by `count` pairs
`{symbol_byte, freq u32 BE}`, then `total`, `precision` and `len` as u32 BE. -/
def pickleArithModel (m : List (Nat × Nat) × Nat × Nat × Nat) : List Nat :=
  toBytesBE 4 m.1.length ++ m.1.flatMap (fun p => p.1 :: toBytesBE 4 p.2) ++
    toBytesBE 4 m.2.1 ++ toBytesBE 4 m.2.2.1 ++ toBytesBE 4 m.2.2.2

/-- Modelled from the spec: inverse of `pickleArithModel` (`pickle.loads`),
reading the freq pairs then the three u32 fields. -/
def unpickleArithPairs : Nat → List Nat → Option (List (Nat × Nat) × List Nat)
  | 0, rest => some ([], rest)
  | n + 1, rest =>
      match rest with
      | s :: r =>
          if 4 ≤ r.length then
            match unpickleArithPairs n (r.drop 4) with
            | some (ps, rest') => some ((s, fromBytesBE (r.take 4)) :: ps, rest')
            | none => none
          else none
      | [] => none

/-- Modelled from the spec: deserialise an arithmetic model. -/
def unpickleArithModel (bs : List Nat) : Option (List (Nat × Nat) × Nat × Nat × Nat) :=
  if 4 ≤ bs.length then
    match unpickleArithPairs (fromBytesBE (bs.take 4)) (bs.drop 4) with
    | some (ps, rest) =>
        if rest.length = 12 then
          some (ps, fromBytesBE (rest.take 4), fromBytesBE ((rest.drop 4).take 4),
            fromBytesBE (rest.drop 8))
        else none
    | none => none
  else none

namespace ArithmeticCompressor

/-- `ArithmeticCompressor.compress`: empty in, empty out; else
`model_size (u32 BE) + model + coded bytes`; `none` when the model blob
cannot fit the 4-byte size field (`int.to_bytes` raises). -/
def compress (data : List Nat) : Option (List Nat) :=
  if data.length = 0 then some []
  else
    let r := arithmetic_encode data
    let mb := pickleArithModel r.2
    if mb.length < 2 ^ 32 then some (toBytesBE 4 mb.length ++ mb ++ r.1) else none

/-- `ArithmeticCompressor.decompress`; `none` when the model fails to parse or
the decoded symbols are not bytes (`bytes(...)` raises). -/
def decompress (data : List Nat) : Option (List Nat) :=
  if data.length = 0 then some []
  else
    let msize := fromBytesBE (data.take 4)
    match unpickleArithModel ((data.drop 4).take msize) with
    | none => none
    | some model =>
        let l := arithmetic_decode ((data.drop 4).drop msize) model
        if l.all (fun x => x < 256) then some l else none

end ArithmeticCompressor

/-- `_bwt_rle_mtf_arithmetic_compress`: inputs below `BWT_BLOCK_SIZE`
(1 MiB) go through the arithmetic coder alone; larger inputs through
BWT blocks (8 KiB) + RLE + MTF + arithmetic. -/
def bwt_rle_mtf_arithmetic_compress (data : List Nat) : Option (List Nat) :=
  if data.length = 0 then some []
  else if data.length < 1024 * 1024 then ArithmeticCompressor.compress data
  else ArithmeticCompressor.compress (mtf_encode (rle_encode (bwt_encode_block data (8*1024))))

/-- `_bwt_rle_mtf_arithmetic_decompress` applied to the payload bytes:
always the full inverse chain (no small-input fallthrough). -/
def bwt_rle_mtf_arithmetic_decompress_payload (payload : List Nat) : Option (List Nat) :=
  match ArithmeticCompressor.decompress payload with
  | none => none
  | some mtf_data =>
      match mtf_decode mtf_data with
      | none => none
      | some rle_data =>
          match rle_decode rle_data with
          | none => none
          | some bwt_block_data => bwt_decode_block bwt_block_data

/-! ## compressor.py `compress_to_sor` (v0.0.2) and decompressor.py
`decompress_from_sor` (v0.0.1): the archive writer and reader
(claims C1, C2, C5, C6) -/

def METHOD_STORE : Nat := 0
def METHOD_HUFFMAN : Nat := 1
def METHOD_BWT_RLE_MTF_HUFFMAN : Nat := 2
def METHOD_BWT_RLE_MTF_ARITHMETIC : Nat := 3
def METHOD_LZMA : Nat := 4
def METHOD_BWT_LZMA : Nat := 5
def METHOD_PATTERN_LZMA : Nat := 6
def METHOD_DUP_REF : Nat := 7
def METHOD_BWT_RLE_MTF_PPM : Nat := 8

def FILE_TYPE_COMPRESSED : Nat := 0
def FILE_TYPE_TEXT : Nat := 1
def FILE_TYPE_BINARY : Nat := 2
def FILE_TYPE_UNKNOWN : Nat := 3

/-- `MAGIC = b'SOR2'`. -/
def MAGIC : List Nat := [83, 79, 82, 50]

/-- `MAGIC_V1 = b'SOR1'`. -/
def MAGIC_V1 : List Nat := [83, 79, 82, 49]

def VERSION : Nat := 2

/-- The external codecs the writer and reader call but whose implementations
live outside this repository (the `lzma` library) or serialise native object
graphs the spec's section 9 declares legacy (`pickle` of the pattern table
and of PPM metadata): the embedding is parameterised over them, `none`
standing for a raised exception. -/
structure ExtCodecs where
  lzc : Nat → List Nat → Option (List Nat)
  bwtlzc : List Nat → Option (List Nat)
  ppmc : Nat → List Nat → Option (List Nat)
  pickleTable : List (Nat × List Nat) → List Nat
  lzd : List Nat → Option (List Nat)
  bwtlzd : List Nat → Option (List Nat)
  ppmd : List Nat → Nat → Option (List Nat)
  unpickleTable : List Nat → Option (List (Nat × List Nat))

/-- Instantiation in which every external codec raises: LZMA trials are
skipped by the writer's per-trial `except`, and LZMA/PPM archive entries fail
on read. -/
def extNone : ExtCodecs :=
  ⟨fun _ _ => none, fun _ => none, fun _ _ => none, fun _ => [],
    fun _ => none, fun _ => none, fun _ _ => none, fun _ => none⟩

/-- The compression trials `compress_to_sor` attempts, one constructor per
`candidates.append` site. -/
inductive Trial where
  | STORE : Trial
  | LZMA : Nat → Trial
  | PPM : Nat → Trial
  | BRM_HUFFMAN : Trial
  | BRM_ARITH : Trial
  | BWT_LZ : Trial
  | PATTERN_LZ : Trial
  | HUFFMAN : Trial
  deriving DecidableEq

/-- The candidate enumeration of `compress_to_sor` (lines 403-459): the full
set for `FILE_TYPE_TEXT`, and only STORE and the three LZMA presets for every
other tag (the `else` branch covers BINARY, COMPRESSED and UNKNOWN alike). -/
def trial_methods (file_type : Nat) : List Trial :=
  if file_type = FILE_TYPE_TEXT then
    [Trial.STORE, Trial.LZMA 3, Trial.LZMA 6, Trial.LZMA 9,
     Trial.PPM 0, Trial.PPM 1, Trial.PPM 2, Trial.PPM 3,
     Trial.BRM_HUFFMAN, Trial.BRM_ARITH, Trial.BWT_LZ, Trial.PATTERN_LZ, Trial.HUFFMAN]
  else
    [Trial.STORE, Trial.LZMA 3, Trial.LZMA 6, Trial.LZMA 9]

/-- `method_code_map` (default `METHOD_STORE` is never needed: every name the
writer produces is a key). -/
def method_code : Trial → Nat
  | Trial.STORE => METHOD_STORE
  | Trial.LZMA _ => METHOD_LZMA
  | Trial.PPM _ => METHOD_BWT_RLE_MTF_PPM
  | Trial.BRM_HUFFMAN => METHOD_BWT_RLE_MTF_HUFFMAN
  | Trial.BRM_ARITH => METHOD_BWT_RLE_MTF_ARITHMETIC
  | Trial.BWT_LZ => METHOD_BWT_LZMA
  | Trial.PATTERN_LZ => METHOD_PATTERN_LZMA
  | Trial.HUFFMAN => METHOD_HUFFMAN

/-- One trial encode; `none` models the exception its `except` swallows.
PATTERN_LZ builds `{table_len u32 LE, table, lzma_len u32 LE, lzma}`. -/
def runTrial (ext : ExtCodecs) (data : List Nat) : Trial → Option (List Nat)
  | Trial.STORE => some data
  | Trial.LZMA preset => ext.lzc preset data
  | Trial.PPM o => ext.ppmc o data
  | Trial.BRM_HUFFMAN => bwt_rle_mtf_huffman_compress data
  | Trial.BRM_ARITH => bwt_rle_mtf_arithmetic_compress data
  | Trial.BWT_LZ => ext.bwtlzc data
  | Trial.PATTERN_LZ =>
      match ext.lzc 9 (pattern_encode data).1 with
      | none => none
      | some pat_lzma =>
          let tb := ext.pickleTable (pattern_encode data).2
          if tb.length < 2 ^ 32 ∧ pat_lzma.length < 2 ^ 32 then
            some (toBytesLE 4 tb.length ++ tb ++ toBytesLE 4 pat_lzma.length ++ pat_lzma)
          else none
  | Trial.HUFFMAN => HuffmanCompressor.compress data

/-- `min(candidates, key=len)`: first candidate of minimal payload length. -/
def selectCandidate : List (Trial × List Nat) → Option (Trial × List Nat)
  | [] => none
  | c :: cs => some (cs.foldl (fun best x => if x.2.length < best.2.length then x else best) c)

/-- One entry of `compress_to_sor`: detect, trial-encode, pick the smallest,
force STORE when not smaller than the input, then dedup by content hash
(SHA-256 digests are modelled by the content itself — the digest is used
only as a dict key) and serialise
`{name_len u16 LE, name, file_type u8, method u8, original_size u32 LE}` +
(`ref_index u32 LE` for DUP_REF | `payload_len u32 LE` + payload).  `none`
when a size field overflows (`struct.pack` raises); unlike the source, which
skips the entry and keeps writing, this model fails the whole archive —
the difference is unobservable for in-range inputs. -/
def compress_entry (ext : ExtCodecs) (detect : List Nat → List Nat → Nat)
    (hash_map : List (List Nat × Nat)) (name data : List Nat) :
    Option (List Nat × List (List Nat × Nat)) :=
  if name.length < 2 ^ 16 then
    let file_type := detect name data
    let cands := (trial_methods file_type).filterMap
      (fun t => (runTrial ext data t).map (fun c => (t, c)))
    match selectCandidate cands with
    | none => none
    | some sel =>
        let chosen := if data.length ≤ sel.2.length then (Trial.STORE, data) else sel
        match hash_map.lookup data with
        | some refIdx =>
            if data.length < 2 ^ 32 ∧ refIdx < 2 ^ 32 then
              some (toBytesLE 2 name.length ++ name ++
                [file_type % 256, METHOD_DUP_REF] ++ toBytesLE 4 data.length ++
                toBytesLE 4 refIdx, hash_map)
            else none
        | none =>
            if data.length < 2 ^ 32 ∧ chosen.2.length < 2 ^ 32 then
              some (toBytesLE 2 name.length ++ name ++
                [file_type % 256, method_code chosen.1] ++ toBytesLE 4 data.length ++
                toBytesLE 4 chosen.2.length ++ chosen.2,
                hash_map ++ [(data, hash_map.length)])
            else none
  else none

/-- The entry loop of `compress_to_sor`, threading the dedup map. -/
def compress_entries (ext : ExtCodecs) (detect : List Nat → List Nat → Nat) :
    List (List Nat × List Nat) → List (List Nat × Nat) → Option (List Nat)
  | [], _ => some []
  | e :: rest, hm =>
      match compress_entry ext detect hm e.1 e.2 with
      | none => none
      | some r =>
          match compress_entries ext detect rest r.2 with
          | none => none
          | some bs => some (r.1 ++ bs)

/-- `compress_to_sor`: header `{MAGIC, version u32 LE, entry_count u32 LE}`
followed by the entries.  Entries are `(utf-8 name bytes, content bytes)`
pairs; the file-type detector (an external collaborator reading the file
system) is a parameter. -/
def compress_to_sor (ext : ExtCodecs) (detect : List Nat → List Nat → Nat)
    (entries : List (List Nat × List Nat)) : Option (List Nat) :=
  if entries.length < 2 ^ 32 then
    match compress_entries ext detect entries [] with
    | none => none
    | some body => some (MAGIC ++ toBytesLE 4 VERSION ++ toBytesLE 4 entries.length ++ body)
  else none

/-- Bytes `sanitize_filename` replaces with `_` in each path component:
`: * ? " < > | \` and the control range. -/
def forbiddenByte (b : Nat) : Bool :=
  b = 58 || b = 42 || b = 63 || b = 34 || b = 60 || b = 62 || b = 124 || b = 92 || decide (b < 32)

/-- `part.strip(' .')`. -/
def stripSpacesDots (l : List Nat) : List Nat :=
  ((l.dropWhile (fun b => b = 32 || b = 46)).reverse.dropWhile (fun b => b = 32 || b = 46)).reverse

/-- `name.split('/')` (47 is `/`). -/
def splitOnSlash (l : List Nat) : List (List Nat) :=
  l.foldr (fun b acc =>
    if b = 47 then [] :: acc
    else match acc with
      | [] => [[b]]
      | p :: ps => (b :: p) :: ps) [[]]

/-- `os.path.join(*parts)` on POSIX for the non-empty parts this file
produces: join with `/`. -/
def joinSlash : List (List Nat) → List Nat
  | [] => []
  | [p] => p
  | p :: ps => p ++ 47 :: joinSlash ps

/-- `sanitize_filename`, at the byte level. -/
def sanitize_filename (name : List Nat) : List Nat :=
  joinSlash ((splitOnSlash name).map
    (fun part => stripSpacesDots (part.map (fun b => if forbiddenByte b then 95 else b))))

/-- `filename_bytes.decode('utf-8')`, modelled on the ASCII subset: names
with a byte ≥ 128 are treated as undecodable (conservative; every name the
claims use is ASCII). -/
def decodeName (name : List Nat) : Option (List Nat) :=
  if name.all (fun b => b < 128) then some name else none

/-- `SORDecompressor.decompress_file`: dispatch on `method_code`, consuming
bytes from the stream `s`; returns the entry's bytes (or `none` for a raised
exception) together with the rest of the stream from the position where the
branch stopped reading.  `f.read(n)` returns short data at EOF without
error, but `struct.unpack` on a short read raises. -/
def decompress_file (ext : ExtCodecs) (files : List (Nat × List Nat))
    (mcode original_size : Nat) (s : List Nat) : Option (List Nat) × List Nat :=
  if mcode = METHOD_STORE then
    if s.length < 4 then (none, s.drop 4)
    else (some ((s.drop 4).take (fromBytesLE (s.take 4))),
      (s.drop 4).drop (fromBytesLE (s.take 4)))
  else if mcode = METHOD_HUFFMAN then
    if s.length < 4 then (none, s.drop 4)
    else (HuffmanCompressor.decompress ((s.drop 4).take (fromBytesLE (s.take 4))),
      (s.drop 4).drop (fromBytesLE (s.take 4)))
  else if mcode = METHOD_BWT_RLE_MTF_HUFFMAN then
    if s.length < 4 then (none, s.drop 4)
    else (bwt_rle_mtf_huffman_decompress_payload ((s.drop 4).take (fromBytesLE (s.take 4))),
      (s.drop 4).drop (fromBytesLE (s.take 4)))
  else if mcode = METHOD_BWT_RLE_MTF_ARITHMETIC then
    if s.length < 4 then (none, s.drop 4)
    else (bwt_rle_mtf_arithmetic_decompress_payload ((s.drop 4).take (fromBytesLE (s.take 4))),
      (s.drop 4).drop (fromBytesLE (s.take 4)))
  else if mcode = METHOD_LZMA then
    if s.length < 4 then (none, s.drop 4)
    else (ext.lzd ((s.drop 4).take (fromBytesLE (s.take 4))),
      (s.drop 4).drop (fromBytesLE (s.take 4)))
  else if mcode = METHOD_BWT_LZMA then
    if s.length < 4 then (none, s.drop 4)
    else (ext.bwtlzd ((s.drop 4).take (fromBytesLE (s.take 4))),
      (s.drop 4).drop (fromBytesLE (s.take 4)))
  else if mcode = METHOD_PATTERN_LZMA then
    if s.length < 4 then (none, s.drop 4)
    else
      match ext.unpickleTable ((s.drop 4).take (fromBytesLE (s.take 4))) with
      | none => (none, (s.drop 4).drop (fromBytesLE (s.take 4)))
      | some table =>
          if ((s.drop 4).drop (fromBytesLE (s.take 4))).length < 4 then
            (none, ((s.drop 4).drop (fromBytesLE (s.take 4))).drop 4)
          else
            match ext.lzd (((((s.drop 4).drop (fromBytesLE (s.take 4))).drop 4)).take
                (fromBytesLE (((s.drop 4).drop (fromBytesLE (s.take 4))).take 4))) with
            | none =>
                (none, ((((s.drop 4).drop (fromBytesLE (s.take 4))).drop 4)).drop
                  (fromBytesLE (((s.drop 4).drop (fromBytesLE (s.take 4))).take 4)))
            | some pat_data =>
                (some ((pattern_decode pat_data table).take original_size),
                  ((((s.drop 4).drop (fromBytesLE (s.take 4))).drop 4)).drop
                    (fromBytesLE (((s.drop 4).drop (fromBytesLE (s.take 4))).take 4)))
  else if mcode = METHOD_DUP_REF then
    if s.length < 4 then (none, s.drop 4)
    else (files.lookup (fromBytesLE (s.take 4)), s.drop 4)
  else if mcode = METHOD_BWT_RLE_MTF_PPM then
    if s.length < 4 then (none, s.drop 4)
    else (ext.ppmd ((s.drop 4).take (fromBytesLE (s.take 4))) original_size,
      (s.drop 4).drop (fromBytesLE (s.take 4)))
  else (none, s)

/-- One iteration of the `for i in range(file_count)` loop of
`decompress_from_sor`: parse the name, the three header fields (order keyed
off the magic), decompress; `none` models the per-entry `except ... continue`,
leaving the stream at the failure point. -/
def read_entry (ext : ExtCodecs) (is_v2 : Bool) (files : List (Nat × List Nat))
    (s : List Nat) : Option (List Nat × List Nat) × List Nat :=
  if s.length < 2 then (none, s.drop 2)
  else
    match decodeName ((s.drop 2).take (fromBytesLE (s.take 2))) with
    | none => (none, (s.drop 2).drop (fromBytesLE (s.take 2)))
    | some nm =>
        if ((s.drop 2).drop (fromBytesLE (s.take 2))).length < 6 then
          (none, ((s.drop 2).drop (fromBytesLE (s.take 2))).drop 6)
        else
          match decompress_file ext files
            (if is_v2 then ((s.drop 2).drop (fromBytesLE (s.take 2))).getD 1 0
              else ((s.drop 2).drop (fromBytesLE (s.take 2))).getD 5 0)
            (if is_v2 then
                fromBytesLE ((((s.drop 2).drop (fromBytesLE (s.take 2))).drop 2).take 4)
              else
                fromBytesLE ((((s.drop 2).drop (fromBytesLE (s.take 2))).drop 1).take 4))
            (((s.drop 2).drop (fromBytesLE (s.take 2))).drop 6) with
          | (none, rest) => (none, rest)
          | (some data, rest) => (some (sanitize_filename nm, data), rest)

/-- The entry loop: on success the data is recorded in `decompressed_files`
under the loop index `i` and the `(sanitised name, data)` pair is written
out; on error the entry is skipped. -/
def read_entries (ext : ExtCodecs) (is_v2 : Bool) :
    Nat → Nat → List Nat → List (Nat × List Nat) → List (List Nat × List Nat) →
    List (List Nat × List Nat)
  | 0, _, _, _, out => out
  | count + 1, i, s, files, out =>
      match read_entry ext is_v2 files s with
      | (none, rest) => read_entries ext is_v2 count (i + 1) rest files out
      | (some nd, rest) =>
          read_entries ext is_v2 count (i + 1) rest (files ++ [(i, nd.2)]) (out ++ [nd])

/-- `decompress_from_sor`: header check keyed off the magic (`SOR2` with a
version field, legacy `SOR1` without), then the entry loop; the result is
the list of `(sanitised name bytes, data bytes)` pairs written to disk, in
order.  `none` for a bad magic or a header truncated mid-field. -/
def decompress_from_sor (ext : ExtCodecs) (archive : List Nat) :
    Option (List (List Nat × List Nat)) :=
  if archive.take 4 = MAGIC then
    if archive.length < 12 then none
    else some (read_entries ext true (fromBytesLE ((archive.drop 8).take 4)) 0
      (archive.drop 12) [] [])
  else if archive.take 4 = MAGIC_V1 then
    if archive.length < 8 then none
    else some (read_entries ext false (fromBytesLE ((archive.drop 4).take 4)) 0
      (archive.drop 8) [] [])
  else none


def detectUnknown : List Nat → List Nat → Nat := fun _ _ => FILE_TYPE_UNKNOWN

def dupEntries : List (List Nat × List Nat) :=
  [([97], [0]), ([98], [0]), ([99], [1]), ([100], [1])]

/-- The record a legacy STORE entry occupies:
`{name_len u16 LE, name, type, size u32 LE, method=STORE, payload_len u32 LE,
payload}`. -/
def storeBlock (name data : List Nat) : List Nat :=
  toBytesLE 2 name.length ++ (name ++ (FILE_TYPE_TEXT :: (toBytesLE 4 data.length ++
    (METHOD_STORE :: (toBytesLE 4 data.length ++ data)))))

/-- The record a legacy DUP_REF entry occupies:
`{name_len u16 LE, name, type, size u32 LE, method=DUP_REF, ref u32 LE}`. -/
def dupBlock (name data : List Nat) (refIdx : Nat) : List Nat :=
  toBytesLE 2 name.length ++ (name ++ (FILE_TYPE_TEXT :: (toBytesLE 4 data.length ++
    (METHOD_DUP_REF :: toBytesLE 4 refIdx))))

/-- Modelled from the spec: one legacy SOR1 entry (sections 3, 4.12, 5 and
the glossary).  Per-entry field order `{file_type, original_size,
method_code}`; new content is written STORE, repeated content DUP_REF
carrying the dedup ordinal (the "zero-based ordinal of a content-unique
entry"); the file_type byte is TEXT (1). -/
def legacy_entry (hash_map : List (List Nat × Nat)) (name data : List Nat) :
    Option (List Nat × List (List Nat × Nat)) :=
  if name.length < 2 ^ 16 ∧ data.length < 2 ^ 32 then
    match hash_map.lookup data with
    | some refIdx => some (dupBlock name data refIdx, hash_map)
    | none => some (storeBlock name data, hash_map ++ [(data, hash_map.length)])
  else none

/-- Modelled from the spec: the legacy writer's entry loop. -/
def legacy_entries : List (List Nat × List Nat) → List (List Nat × Nat) → Option (List Nat)
  | [], _ => some []
  | e :: rest, hm =>
      match legacy_entry hm e.1 e.2 with
      | none => none
      | some r =>
          match legacy_entries rest r.2 with
          | none => none
          | some bs => some (r.1 ++ bs)

/-- Modelled from the spec: the legacy SOR1 archive `{"SOR1",
entry_count u32 LE, entries}` (no version field). -/
def legacy_write_sor (entries : List (List Nat × List Nat)) : Option (List Nat) :=
  if entries.length < 2 ^ 32 then
    match legacy_entries entries [] with
    | none => none
    | some body => some (MAGIC_V1 ++ toBytesLE 4 entries.length ++ body)
  else none

/-- The archive `compress_to_sor` writes for `dupEntries` (checked in
`c2_dedup_index_mismatch`): entries 0 and 2 carry STORE payloads, entries 1
and 3 are DUP_REF records whose trailing 4 bytes hold the dedup ordinals 0
and 1. -/
def dupArchive : List Nat :=
  [83, 79, 82, 50] ++ [2, 0, 0, 0] ++ [4, 0, 0, 0] ++
  ([1, 0] ++ [97] ++ [3, 0] ++ [1, 0, 0, 0] ++ [1, 0, 0, 0] ++ [0]) ++
  ([1, 0] ++ [98] ++ [3, 7] ++ [1, 0, 0, 0] ++ [0, 0, 0, 0]) ++
  ([1, 0] ++ [99] ++ [3, 0] ++ [1, 0, 0, 0] ++ [1, 0, 0, 0] ++ [1]) ++
  ([1, 0] ++ [100] ++ [3, 7] ++ [1, 0, 0, 0] ++ [1, 0, 0, 0])

/-- **Claim C1** (code_bug evidence).  Archive round-trip fails: writing the
four entries a↦[0], b↦[0], c↦[1], d↦[1] (UNKNOWN file type, LZMA
unavailable, so every payload is STORE) and reading the archive back yields
[0] for the fourth entry instead of [1]: the writer numbers duplicate
references by content ordinal while the reader resolves them against entry
indices. -/
theorem c1_archive_roundtrip_fails :
    (compress_to_sor extNone detectUnknown dupEntries).bind (decompress_from_sor extNone) =
      some [([97], [0]), ([98], [0]), ([99], [1]), ([100], [0])] ∧
    (compress_to_sor extNone detectUnknown dupEntries).bind (decompress_from_sor extNone) ≠
      some dupEntries := by
  decide

/-- **Claim C2** (code_bug evidence).  Deduplication indexing: for
`dupEntries`, the first entry holding the fourth entry's content [1] is
entry 2, but the written DUP_REF record for entry 3 carries index 1 (the
content ordinal, `len(hash_map)` at insertion time) — see the last four
bytes of `dupArchive` — and on read it resolves to entry 1's bytes [0], not
to the first occurrence's bytes. -/
theorem c2_dedup_index_mismatch :
    compress_to_sor extNone detectUnknown dupEntries = some dupArchive ∧
    (dupEntries.getD 3 ([], [])).2 = [1] ∧
    (dupEntries.getD 2 ([], [])).2 = [1] ∧
    (dupEntries.getD 1 ([], [])).2 ≠ [1] ∧
    (dupEntries.getD 0 ([], [])).2 ≠ [1] ∧
    dupArchive.drop (dupArchive.length - 4) = [1, 0, 0, 0] ∧
    (decompress_from_sor extNone dupArchive).map (fun l => l.getD 3 ([], [])) =
      some ([100], [0]) := by
  decide

/-- Counterexample for claim C5: the candidate set the writer enumerates for
`FILE_TYPE_UNKNOWN` is not the TEXT set the claim lists. -/
theorem c5_unknown_not_text_set :
    trial_methods FILE_TYPE_UNKNOWN ≠
      [Trial.STORE, Trial.LZMA 3, Trial.LZMA 6, Trial.LZMA 9,
       Trial.PPM 0, Trial.PPM 1, Trial.PPM 2, Trial.PPM 3,
       Trial.BRM_HUFFMAN, Trial.BRM_ARITH, Trial.BWT_LZ, Trial.PATTERN_LZ,
       Trial.HUFFMAN] := by
  decide

/-- **Claim C5** (corrected).  The selector sends UNKNOWN files down the
`else` branch of `compress_to_sor`, so their candidate set is the restricted
{STORE, LZMA preset 3, 6, 9} — not the TEXT set the claim (and spec section
4.11) prescribes. -/
theorem c5_unknown_candidates_restricted :
    trial_methods FILE_TYPE_UNKNOWN =
      [Trial.STORE, Trial.LZMA 3, Trial.LZMA 6, Trial.LZMA 9] ∧
    trial_methods FILE_TYPE_TEXT ≠
      [Trial.STORE, Trial.LZMA 3, Trial.LZMA 6, Trial.LZMA 9] := by
  decide

/-- Counterexample for claim C6: a legacy SOR1 archive of the four entries
e↦[0], f↦[0], g↦[1], h↦[1] (spec-conformant: field order
{type, size, method}, STORE payloads, DUP_REF records carrying dedup
ordinals).  The reader decodes all four entries without reporting any error
and silently emits [0] for the fourth, whose original bytes are [1]. -/
theorem c6_legacy_silent_corruption :
    (legacy_write_sor [([101], [0]), ([102], [0]), ([103], [1]), ([104], [1])]).bind
        (decompress_from_sor extNone) =
      some [([101], [0]), ([102], [0]), ([103], [1]), ([104], [0])] ∧
    (legacy_write_sor [([101], [0]), ([102], [0]), ([103], [1]), ([104], [1])]).bind
        (decompress_from_sor extNone) ≠
      some [([101], [0]), ([102], [0]), ([103], [1]), ([104], [1])] := by
  decide

/-! ### Claim C6, amended: duplicate-free legacy archives round-trip -/

/-- Bytes that survive `sanitize_filename` unchanged: ASCII digits and
letters. -/
def safeNameByte (b : Nat) : Prop :=
  (48 ≤ b ∧ b ≤ 57) ∨ (65 ≤ b ∧ b ≤ 90) ∨ (97 ≤ b ∧ b ≤ 122)

instance (b : Nat) : Decidable (safeNameByte b) :=
  inferInstanceAs (Decidable (_ ∨ _))

theorem toBytesLE_length (w : Nat) : ∀ v, (toBytesLE w v).length = w := by
  induction w with
  | zero => intro v; rfl
  | succ w ih =>
      intro v
      rw [toBytesLE, List.length_cons, ih]

theorem fromBytesLE_toBytesLE (w : Nat) : ∀ v, v < 256 ^ w →
    fromBytesLE (toBytesLE w v) = v := by
  induction w with
  | zero =>
      intro v h
      have : v = 0 := by simpa using h
      subst this
      rfl
  | succ w ih =>
      intro v h
      have hpow : 256 ^ (w + 1) = 256 ^ w * 256 := pow_succ 256 w
      have hdiv : v / 256 < 256 ^ w := by
        rw [Nat.div_lt_iff_lt_mul (by norm_num)]
        omega
      rw [toBytesLE]
      show fromBytesLE (toBytesLE w (v / 256)) * 256 + v % 256 = v
      rw [ih _ hdiv]
      omega

theorem dropWhile_false (p : Nat → Bool) : ∀ l : List Nat, (∀ b ∈ l, p b = false) →
    l.dropWhile p = l := by
  intro l h
  cases l with
  | nil => rfl
  | cons x xs =>
      rw [List.dropWhile_cons, h x (List.mem_cons_self _ _)]
      simp

theorem stripSpacesDots_safe (l : List Nat) (h : ∀ b ∈ l, safeNameByte b) :
    stripSpacesDots l = l := by
  have hp : ∀ b ∈ l, ((b = 32 || b = 46) : Bool) = false := by
    intro b hb
    have := h b hb
    unfold safeNameByte at this
    simp only [Bool.or_eq_false_iff, decide_eq_false_iff_not]
    omega
  unfold stripSpacesDots
  rw [dropWhile_false _ l hp,
    dropWhile_false _ l.reverse (fun b hb => hp b (List.mem_reverse.mp hb)),
    List.reverse_reverse]

theorem splitOnSlash_no_slash (l : List Nat) (h : ∀ b ∈ l, b ≠ 47) :
    splitOnSlash l = [l] := by
  induction l with
  | nil => rfl
  | cons x xs ih =>
      unfold splitOnSlash
      rw [List.foldr_cons]
      have hxs : List.foldr _ [[]] xs = [xs] := ih (fun b hb => h b (List.mem_cons_of_mem _ hb))
      rw [hxs, if_neg (h x (List.mem_cons_self _ _))]

theorem forbiddenByte_safe (b : Nat) (h : safeNameByte b) : forbiddenByte b = false := by
  unfold safeNameByte at h
  unfold forbiddenByte
  simp only [Bool.or_eq_false_iff, decide_eq_false_iff_not]
  omega

theorem map_forbidden_safe (l : List Nat) (h : ∀ b ∈ l, safeNameByte b) :
    l.map (fun b => if forbiddenByte b then 95 else b) = l := by
  induction l with
  | nil => rfl
  | cons x xs ih =>
      have hf : forbiddenByte x = false := forbiddenByte_safe x (h x (List.mem_cons_self _ _))
      rw [List.map_cons, hf, if_neg Bool.false_ne_true,
        ih (fun b hb => h b (List.mem_cons_of_mem _ hb))]

theorem sanitize_safe (name : List Nat) (h : ∀ b ∈ name, safeNameByte b) :
    sanitize_filename name = name := by
  unfold sanitize_filename
  rw [splitOnSlash_no_slash name (fun b hb => by
    have := h b hb
    unfold safeNameByte at this
    omega)]
  rw [List.map_cons, List.map_nil, map_forbidden_safe name h, stripSpacesDots_safe name h]
  rfl

theorem decodeName_safe (name : List Nat) (h : ∀ b ∈ name, safeNameByte b) :
    decodeName name = some name := by
  unfold decodeName
  rw [if_pos]
  exact List.all_eq_true.mpr (fun b hb => decide_eq_true (by
    have := h b hb
    unfold safeNameByte at this
    omega))

theorem lookup_append_none (k : List Nat) (x : List Nat × Nat) (h2 : x.1 ≠ k) :
    ∀ hm : List (List Nat × Nat), hm.lookup k = none → (hm ++ [x]).lookup k = none := by
  intro hm
  induction hm with
  | nil =>
      intro _
      obtain ⟨x1, x2⟩ := x
      rw [List.nil_append,
        show List.lookup k [(x1, x2)] =
          (match k == x1 with
            | true => some x2
            | false => List.lookup k []) from rfl,
        beq_eq_false_iff_ne.mpr (fun e => h2 (e.symm))]
      rfl
  | cons e rest ih =>
      intro h1
      obtain ⟨e1, e2⟩ := e
      rw [show List.lookup k ((e1, e2) :: rest) =
          (match k == e1 with
            | true => some e2
            | false => List.lookup k rest) from rfl] at h1
      rw [List.cons_append,
        show List.lookup k ((e1, e2) :: (rest ++ [x])) =
          (match k == e1 with
            | true => some e2
            | false => List.lookup k (rest ++ [x])) from rfl]
      cases hb : (k == e1) with
      | true => rw [hb] at h1; exact absurd h1 (by simp)
      | false =>
          rw [hb] at h1
          exact ih h1

theorem legacy_entries_nodup :
    ∀ (entries : List (List Nat × List Nat)) (hm : List (List Nat × Nat)),
    (∀ e ∈ entries, hm.lookup e.2 = none) →
    entries.Pairwise (fun a b => a.2 ≠ b.2) →
    (∀ e ∈ entries, e.1.length < 2 ^ 16 ∧ e.2.length < 2 ^ 32) →
    legacy_entries entries hm = some (entries.flatMap (fun e => storeBlock e.1 e.2)) := by
  intro entries
  induction entries with
  | nil => intro hm _ _ _; rfl
  | cons e rest ih =>
      intro hm hnone hpw hbound
      have hentry : legacy_entry hm e.1 e.2 =
          some (storeBlock e.1 e.2, hm ++ [(e.2, hm.length)]) := by
        unfold legacy_entry
        rw [if_pos (hbound e (List.mem_cons_self _ _)), hnone e (List.mem_cons_self _ _)]
      show (match legacy_entry hm e.1 e.2 with
        | none => none
        | some r =>
            match legacy_entries rest r.2 with
            | none => none
            | some bs => some (r.1 ++ bs)) = _
      rw [hentry]
      show (match legacy_entries rest (hm ++ [(e.2, hm.length)]) with
        | none => none
        | some bs => some (storeBlock e.1 e.2 ++ bs)) = _
      rw [ih (hm ++ [(e.2, hm.length)])
          (fun e' he' => lookup_append_none e'.2 (e.2, hm.length)
            ((List.pairwise_cons.mp hpw).1 e' he') hm
            (hnone e' (List.mem_cons_of_mem _ he')))
          (List.pairwise_cons.mp hpw).2
          (fun e' he' => hbound e' (List.mem_cons_of_mem _ he')),
        List.flatMap_cons]

theorem read_entry_storeBlock (ext : ExtCodecs) (files : List (Nat × List Nat))
    (name data rest : List Nat)
    (hname : ∀ b ∈ name, safeNameByte b)
    (hnlen : name.length < 2 ^ 16) (hdlen : data.length < 2 ^ 32) :
    read_entry ext false files (storeBlock name data ++ rest) = (some (name, data), rest) := by
  have hnblen : (toBytesLE 2 name.length).length = 2 := toBytesLE_length 2 name.length
  have hdblen : (toBytesLE 4 data.length).length = 4 := toBytesLE_length 4 data.length
  have hdf : decompress_file ext files METHOD_STORE data.length
      (toBytesLE 4 data.length ++ (data ++ rest)) = (some data, rest) := by
    unfold decompress_file
    rw [if_pos rfl]
    rw [if_neg (by
      simp only [List.length_append, hdblen]
      omega)]
    rw [List.take_left' hdblen, List.drop_left' hdblen,
      fromBytesLE_toBytesLE 4 data.length (by norm_num at hdlen ⊢; omega),
      List.take_left' rfl, List.drop_left' rfl]
  have hmcode : (FILE_TYPE_TEXT :: (toBytesLE 4 data.length ++
      (METHOD_STORE :: (toBytesLE 4 data.length ++ (data ++ rest))))).getD 5 0 =
      METHOD_STORE := by
    show (toBytesLE 4 data.length ++
      (METHOD_STORE :: (toBytesLE 4 data.length ++ (data ++ rest)))).getD 4 0 = METHOD_STORE
    rw [List.getD_append_right _ _ _ _ (by omega), hdblen]
    rfl
  have hosize : fromBytesLE (((FILE_TYPE_TEXT :: (toBytesLE 4 data.length ++
      (METHOD_STORE :: (toBytesLE 4 data.length ++ (data ++ rest))))).drop 1).take 4) =
      data.length := by
    show fromBytesLE ((toBytesLE 4 data.length ++
      (METHOD_STORE :: (toBytesLE 4 data.length ++ (data ++ rest)))).take 4) = _
    rw [List.take_left' hdblen]
    exact fromBytesLE_toBytesLE 4 data.length (by norm_num at hdlen ⊢; omega)
  have hs3 : (FILE_TYPE_TEXT :: (toBytesLE 4 data.length ++
      (METHOD_STORE :: (toBytesLE 4 data.length ++ (data ++ rest))))).drop 6 =
      toBytesLE 4 data.length ++ (data ++ rest) := by
    show (toBytesLE 4 data.length ++
      (METHOD_STORE :: (toBytesLE 4 data.length ++ (data ++ rest)))).drop 5 = _
    rw [show (5 : Nat) = (toBytesLE 4 data.length).length + 1 from by omega, List.drop_append]
    rfl
  unfold storeBlock
  simp only [List.append_assoc, List.cons_append]
  unfold read_entry
  rw [if_neg (by
    simp only [List.length_append, hnblen]
    omega)]
  rw [List.take_left' hnblen, List.drop_left' hnblen,
    fromBytesLE_toBytesLE 2 name.length (by norm_num at hnlen ⊢; omega),
    List.take_left' rfl, List.drop_left' rfl, decodeName_safe name hname]
  simp only []
  rw [if_neg (by
    simp only [List.length_cons, List.length_append, hdblen]
    omega)]
  simp only [Bool.false_eq_true, if_false]
  rw [hmcode, hosize, hs3, hdf]
  simp only []
  rw [sanitize_safe name hname]

theorem read_entries_store (ext : ExtCodecs) :
    ∀ (entries : List (List Nat × List Nat)),
    (∀ e ∈ entries, (∀ b ∈ e.1, safeNameByte b) ∧ e.1.length < 2 ^ 16 ∧ e.2.length < 2 ^ 32) →
    ∀ (i : Nat) (files : List (Nat × List Nat)) (out : List (List Nat × List Nat)),
    read_entries ext false entries.length i
      (entries.flatMap (fun e => storeBlock e.1 e.2)) files out = out ++ entries := by
  intro entries
  induction entries with
  | nil =>
      intro _ i files out
      show out = out ++ []
      rw [List.append_nil]
  | cons e rest ih =>
      intro hb i files out
      rw [List.flatMap_cons, List.length_cons]
      show (match read_entry ext false files (storeBlock e.1 e.2 ++
          rest.flatMap (fun e => storeBlock e.1 e.2)) with
        | (none, r) => read_entries ext false rest.length (i + 1) r files out
        | (some nd, r) =>
            read_entries ext false rest.length (i + 1) r (files ++ [(i, nd.2)])
              (out ++ [nd])) = _
      rw [read_entry_storeBlock ext files e.1 e.2 _
        (hb e (List.mem_cons_self _ _)).1
        (hb e (List.mem_cons_self _ _)).2.1
        (hb e (List.mem_cons_self _ _)).2.2]
      show read_entries ext false rest.length (i + 1) _ (files ++ [(i, e.2)])
        (out ++ [(e.1, e.2)]) = _
      rw [ih (fun e' he' => hb e' (List.mem_cons_of_mem _ he')) (i + 1)
        (files ++ [(i, e.2)]) (out ++ [(e.1, e.2)])]
      rw [show ((e.1, e.2) : List Nat × List Nat) = e from rfl, ← List.append_cons]

/-- **Claim C6** (corrected).  A legacy SOR1 archive can decode silently
wrong (see `c6_legacy_silent_corruption`): DUP_REF records carry dedup
ordinals while the reader resolves them against entry indices.  Legacy
archives free of duplicate contents contain no DUP_REF records, and those
round-trip exactly: every entry is reconstructed, none reports an error. -/
theorem c6_legacy_nodup_roundtrip (ext : ExtCodecs) (entries : List (List Nat × List Nat))
    (hdist : entries.Pairwise (fun a b => a.2 ≠ b.2))
    (hsafe : ∀ e ∈ entries,
      (∀ b ∈ e.1, safeNameByte b) ∧ e.1.length < 2 ^ 16 ∧ e.2.length < 2 ^ 32)
    (hcount : entries.length < 2 ^ 32) :
    (legacy_write_sor entries).bind (decompress_from_sor ext) = some entries := by
  unfold legacy_write_sor
  rw [if_pos hcount,
    legacy_entries_nodup entries [] (fun e _ => rfl) hdist
      (fun e he => ⟨(hsafe e he).2.1, (hsafe e he).2.2⟩)]
  show decompress_from_sor ext
    (MAGIC_V1 ++ toBytesLE 4 entries.length ++ entries.flatMap (fun e => storeBlock e.1 e.2)) =
    some entries
  set body := entries.flatMap (fun e => storeBlock e.1 e.2) with hbody
  set cb := toBytesLE 4 entries.length with hcb
  have hcblen : cb.length = 4 := toBytesLE_length 4 entries.length
  rw [List.append_assoc]
  unfold decompress_from_sor
  rw [List.take_left' (show MAGIC_V1.length = 4 from rfl)]
  rw [if_neg (by decide), if_pos rfl]
  rw [if_neg (by
    simp only [List.length_append]
    have h4 : MAGIC_V1.length = 4 := rfl
    omega)]
  rw [show ((MAGIC_V1 ++ (cb ++ body)).drop 4) = cb ++ body from
      List.drop_left' (show MAGIC_V1.length = 4 from rfl),
    List.take_left' hcblen,
    show ((MAGIC_V1 ++ (cb ++ body)).drop 8) = body from by
      rw [show (8 : Nat) = MAGIC_V1.length + 4 from rfl, List.drop_append]
      exact List.drop_left' hcblen,
    fromBytesLE_toBytesLE 4 entries.length (by norm_num at hcount ⊢; omega)]
  rw [show read_entries ext false entries.length 0 body [] [] = [] ++ entries from
    read_entries_store ext entries hsafe 0 [] [], List.nil_append]

/-- Witness for claim C6 at two distinct single-byte entries a↦[0], b↦[1]. -/
theorem c6_legacy_nodup_roundtrip_witness :
    (([([97], [0]), ([98], [1])] : List (List Nat × List Nat)).Pairwise
      (fun a b => a.2 ≠ b.2)) ∧
    (∀ e ∈ ([([97], [0]), ([98], [1])] : List (List Nat × List Nat)),
      (∀ b ∈ e.1, safeNameByte b) ∧ e.1.length < 2 ^ 16 ∧ e.2.length < 2 ^ 32) ∧
    ([([97], [0]), ([98], [1])] : List (List Nat × List Nat)).length < 2 ^ 32 ∧
    (legacy_write_sor [([97], [0]), ([98], [1])]).bind (decompress_from_sor extNone) =
      some [([97], [0]), ([98], [1])] :=
  ⟨by decide, by decide, by decide,
    c6_legacy_nodup_roundtrip extNone [([97], [0]), ([98], [1])] (by decide) (by decide)
      (by decide)⟩

end SOR


